import Mathlib

/-!
# Lambda calculus evaluator: expression trees, substitution and the CEK machine

A shallow embedding of `eval.c`, `stdlib.c` and `util.c`.

* Expression trees are values: `deleteTree`, `deleteTreeNode` and the ownership hand-offs
  of the C code have no counterpart, and `duplicateTree` is the identity.
* Every function that recurses or loops without a structural bound takes a fuel argument
  and answers `none` (for trees) or `Run.timeout` (for the machine) when it runs out.
* An environment frame never changes its name or its parent after `cek_newEnvironment`;
  only its closure slot is overwritten (by the memoising lookup). A frame pointer is
  therefore the immutable chain `Environment` carrying frame identifiers, and the closure
  slots live in `Memory`, indexed by identifier.
* `varset.c`, `builtin.c`, `primitive.c`, `cek_machine.c`, `globals.h` and the parser are
  not part of the sources at hand; what the code uses of them is modelled from the
  specification or taken as a parameter (`Externals`).
-/

namespace LambdaEval

/-! ## Expression trees -/

/-- Modelled from the spec: the `TreeNode` declaration of `globals.h` is missing. A node is
an identifier, an integer constant, an abstraction (whose first child is always an `Id`,
kept as its name), an application or a binary primitive named by its operator. -/
inductive TreeNode where
  | IdK (name : String)
  | ConstK (value : Int)
  | AbsK (param : String) (body : TreeNode)
  | AppK (fn arg : TreeNode)
  | PrimiK (op : String) (left right : TreeNode)
  deriving DecidableEq, Repr

open TreeNode

/-- Kinds of expression nodes (`expr->kind`). -/
inductive ExprKind where
  | IdK | ConstK | AbsK | AppK | PrimiK
  deriving DecidableEq, Repr

/-- The `kind` field of a node. -/
def TreeNode.kind : TreeNode → ExprKind
  | IdK _ => ExprKind.IdK
  | ConstK _ => ExprKind.ConstK
  | AbsK _ _ => ExprKind.AbsK
  | AppK _ _ => ExprKind.AppK
  | PrimiK _ _ _ => ExprKind.PrimiK

/-- `duplicateTree` (util.c): a deep copy; on tree values the copy is the tree itself, and
the copy of `NULL` is `NULL`. -/
def duplicateTree (tree : Option TreeNode) : Option TreeNode := tree

/-- Number of nodes of a tree. -/
def size : TreeNode → Nat
  | IdK _ => 1
  | ConstK _ => 1
  | AbsK _ body => size body + 1
  | AppK f a => size f + size a + 1
  | PrimiK _ l r => size l + size r + 1

/-- Parameters of all abstractions of a tree. -/
def boundParams : TreeNode → List String
  | IdK _ => []
  | ConstK _ => []
  | AbsK x b => x :: boundParams b
  | AppK f a => boundParams f ++ boundParams a
  | PrimiK _ l r => boundParams l ++ boundParams r

/-! ## Free-variable sets -/

/-- Modelled from the spec: `varset.c` is missing. A set of identifier names, kept as the
list of its members in insertion order, without repetition. -/
abbrev VarSet := List String

/-- Modelled from the spec: `newVarSet` of the missing `varset.c`, the empty set. -/
def newVarSet : VarSet := []

/-- Modelled from the spec: `contains` of the missing `varset.c`, the membership test. -/
def contains (set : VarSet) (name : String) : Bool := set.elem name

/-- Modelled from the spec: `addVar` of the missing `varset.c`, insertion. -/
def addVar (set : VarSet) (name : String) : VarSet :=
  if contains set name then set else set ++ [name]

/-- Modelled from the spec: `deleteVar` of the missing `varset.c`, removal. -/
def deleteVar (set : VarSet) (name : String) : VarSet :=
  set.filter (fun n => n != name)

/-- Modelled from the spec: `unionVarSet(set, set1, set2)` of the missing `varset.c`, which
adds the members of `set1` and of `set2` to `set`. -/
def unionVarSet (set set1 set2 : VarSet) : VarSet :=
  set2.foldl addVar (set1.foldl addVar set)

/-- Modelled from the spec: `vs_asList` of the missing `varset.c`, the members as a list
in a deterministic (insertion) order. -/
def vs_asList (set : VarSet) : List String := set

/-- `FV` (eval.c, lines 218-247): the free variables of an expression. -/
def FV : TreeNode → VarSet
  | IdK name => addVar newVarSet name
  | ConstK _ => newVarSet
  | AbsK param body => deleteVar (FV body) param
  | AppK f a => unionVarSet newVarSet (FV f) (FV a)
  | PrimiK _ l r => unionVarSet newVarSet (FV l) (FV r)

/-- Spec side of the free-variable law: `n` has an occurrence in the tree that is not
under an abstraction binding `n`. -/
def occursFree (n : String) : TreeNode → Prop
  | IdK x => n = x
  | ConstK _ => False
  | AbsK x b => occursFree n b ∧ n ≠ x
  | AppK f a => occursFree n f ∨ occursFree n a
  | PrimiK _ l r => occursFree n l ∨ occursFree n r

/-! ## Alpha conversion and substitution -/

/-- The string of `n` underscores that the inner `for` loop of `alphaConversion`
appends with `strcat` (eval.c, lines 182-184). -/
def underscores : Nat → String
  | 0 => ""
  | n + 1 => underscores n ++ "_"

/-- The `do ... while` loop of `alphaConversion` (eval.c, lines 175-185). `attempts` is
the counter before its increment; the candidate is the original name followed by that
many underscores plus one, and the loop goes on while the candidate equals the original
name or is in `set`. The loop is bounded by `fuel`; `pickName_spec` shows that the bound
`set.length + 1` used by `alphaConversion` is never exhausted.

The result is the name that the stores of `strcpy` and `strcat` spell, from the first byte
of the block on. The block itself is `nameBlockSize` bytes long and `nameBytesStored`
bytes are stored: the terminating NUL lies one byte past its end, so this string is what
the code reads back only as long as that byte is left alone. -/
def pickName (set : VarSet) (orig : String) : Nat → Nat → String
  | 0, attempts => orig ++ underscores (attempts + 1)
  | fuel + 1, attempts =>
    let name := orig ++ underscores (attempts + 1)
    if name == orig || contains set name then pickName set orig fuel (attempts + 1) else name

mutual
/-- `substitute` (eval.c, lines 250-293) on trees that are not `NULL`, with the variable
`var` (an `Id` node for every caller) given by its name. `none` is fuel exhaustion. -/
def substitute : Nat → TreeNode → String → TreeNode → Option TreeNode
  | 0, _, _, _ => none
  | fuel + 1, expr, var, sub =>
    match expr with
    | IdK name => if name == var then some sub else some expr
    | ConstK _ => some expr
    | AbsK parname body =>
      if parname != var then
        match renameLoop fuel (FV sub) parname body with
        | none => none
        | some (parname1, body1) =>
          match substitute fuel body1 var sub with
          | none => none
          | some result => some (AbsK parname1 result)
      else some expr
    | AppK f a =>
      match substitute fuel f var sub with
      | none => none
      | some f1 =>
        match substitute fuel a var sub with
        | none => none
        | some a1 => some (AppK f1 a1)
    | PrimiK op l r =>
      match substitute fuel l var sub with
      | none => none
      | some l1 =>
        match substitute fuel r var sub with
        | none => none
        | some r1 => some (PrimiK op l1 r1)
/-- The loop `while(contains(set,parname))` of `substitute` (eval.c, lines 273-276) on
the abstraction with parameter `parname` and body `body`: it alpha-converts the
abstraction until its parameter is not in `set`, and returns the parameter and body. -/
def renameLoop : Nat → VarSet → String → TreeNode → Option (String × TreeNode)
  | 0, _, _, _ => none
  | fuel + 1, set, parname, body =>
    if contains set parname then
      match alphaConversion fuel (AbsK parname body) with
      | some (AbsK parname1 body1) => renameLoop fuel set parname1 body1
      | _ => none
    else some (parname, body)
/-- `alphaConversion` (eval.c, lines 164-194). A tree that is no abstraction is returned as
it is (the C code also reports it on `errOut`; `substitute` only passes abstractions).
The fresh name is the string of `pickName`; that its block is one byte short is the
subject of `nameFitsBlock`, not of this function on trees. -/
def alphaConversion : Nat → TreeNode → Option TreeNode
  | 0, _ => none
  | fuel + 1, expr =>
    match expr with
    | AbsK parname body =>
      let set := FV body
      let name := pickName set parname (set.length + 1) 0
      match substitute fuel body parname (IdK name) with
      | none => none
      | some result => some (AbsK name result)
    | _ => some expr
end

/-- Shape of the tree that `substitute e x (IdK z)` builds (renaming by an identifier):
the nested alpha conversion of an abstraction whose parameter is `z` is spelled out. -/
inductive Renames : String → String → TreeNode → TreeNode → Prop
  | idHit (x z : String) : Renames x z (IdK x) (IdK z)
  | idMiss (x z y : String) (h : y ≠ x) : Renames x z (IdK y) (IdK y)
  | const (x z : String) (c : Int) : Renames x z (ConstK c) (ConstK c)
  | absShadow (x z : String) (b : TreeNode) : Renames x z (AbsK x b) (AbsK x b)
  | absPlain (x z y : String) (b b1 : TreeNode) (h1 : y ≠ x) (h2 : y ≠ z)
      (hb : Renames x z b b1) : Renames x z (AbsK y b) (AbsK y b1)
  | absRename (x z : String) (b b1 b2 : TreeNode) (h1 : z ≠ x)
      (hb1 : Renames z (pickName (FV b) z ((FV b).length + 1) 0) b b1)
      (hb2 : Renames x z b1 b2) :
      Renames x z (AbsK z b) (AbsK (pickName (FV b) z ((FV b).length + 1) 0) b2)
  | app (x z : String) (f a f1 a1 : TreeNode) (hf : Renames x z f f1) (ha : Renames x z a a1) :
      Renames x z (AppK f a) (AppK f1 a1)
  | prim (x z op : String) (l r l1 r1 : TreeNode) (hl : Renames x z l l1)
      (hr : Renames x z r r1) : Renames x z (PrimiK op l r) (PrimiK op l1 r1)

/-! ## Nameless terms and alpha equivalence -/

/-- Nameless terms: bound identifiers are binder positions, free ones keep their name. -/
inductive DBTerm where
  | bvar (i : Nat)
  | fvar (name : String)
  | const (c : Int)
  | lam (body : DBTerm)
  | app (f a : DBTerm)
  | prim (op : String) (l r : DBTerm)
  deriving DecidableEq, Repr

/-- One more binder between an identifier and its reference. -/
def liftVar : DBTerm → DBTerm
  | DBTerm.bvar i => DBTerm.bvar (i + 1)
  | t => t

/-- Position of the innermost binder of `w` among the enclosing parameters, innermost
first; a name with no binder stays free. -/
def lookVar : List String → String → DBTerm
  | [], w => DBTerm.fvar w
  | y :: ctx, w => if w = y then DBTerm.bvar 0 else liftVar (lookVar ctx w)

/-- Translation to nameless terms under the enclosing parameters `ctx`. -/
def toDB : List String → TreeNode → DBTerm
  | ctx, IdK n => lookVar ctx n
  | _, ConstK c => DBTerm.const c
  | ctx, AbsK x b => DBTerm.lam (toDB (x :: ctx) b)
  | ctx, AppK f a => DBTerm.app (toDB ctx f) (toDB ctx a)
  | ctx, PrimiK op l r => DBTerm.prim op (toDB ctx l) (toDB ctx r)

/-- Alpha equivalence: equal once bound names are replaced by binder positions. -/
def alphaEquivalent (e1 e2 : TreeNode) : Prop := toDB [] e1 = toDB [] e2

instance (e1 e2 : TreeNode) : Decidable (alphaEquivalent e1 e2) := by
  unfold alphaEquivalent
  infer_instance

/-! ## Function registries -/

/-- An entry of the built-in registry: `expandFun` is the tree that `(fun->expandFun)()`
synthesises. -/
structure BuiltinFun where
  name : String
  expandFun : TreeNode
  deriving DecidableEq, Repr

/-- Modelled from the spec: `builtin.c` and `primitive.c` are missing. The built-in
registry is the array that `builtinFuns` returns, and `evalPrimitive` maps a primitive node
whose operands are constants to the constant it denotes. Both are parameters of the
machine. -/
structure Externals where
  builtinFunctions : List BuiltinFun
  evalPrimitive : TreeNode → TreeNode

/-- Modelled from the spec: `lookupBuiltinFun` of the missing `builtin.c`, the first entry
of the registry with the given name (as `lookupStandardFun` does). -/
def lookupBuiltinFun (ext : Externals) (name : String) : Option BuiltinFun :=
  ext.builtinFunctions.find? (fun f => name == f.name)

/-- An entry of the standard registry: a name and the source text of its definition. -/
structure StandardFun where
  name : String
  expr : String
  deriving DecidableEq, Repr

/-- `standardFunctions` (stdlib.c, lines 12-17). -/
def standardFunctions : List StandardFun :=
  [ ⟨"Y", "(lambda f (lambda a (lambda x f (lambda g (x x ) g)) (lambda x f (lambda g (x x) g)) a))"⟩,
    ⟨"not", "(lambda p (lambda x (lambda y p y x)))"⟩,
    ⟨"or", "(lambda p (lambda q p p q))"⟩,
    ⟨"and", "(lambda p (lambda q p q p))"⟩ ]

/-- `lookupStandardFun` (stdlib.c, lines 19-27). -/
def lookupStandardFun (name : String) : Option StandardFun :=
  standardFunctions.find? (fun f => name == f.name)

/-- Modelled from the spec: the parser that `expandStandardFun` (stdlib.c, lines 30-35)
runs on the source text is missing. The trees are the readings of the four texts of
`standardFunctions` with application associating to the left and the body of a `lambda`
extending to its closing parenthesis; any other text has no reading here. -/
def parse (text : String) : Option TreeNode :=
  if text == "(lambda f (lambda a (lambda x f (lambda g (x x ) g)) (lambda x f (lambda g (x x) g)) a))" then
    some (AbsK "f" (AbsK "a" (AppK (AppK
      (AbsK "x" (AppK (IdK "f") (AbsK "g" (AppK (AppK (IdK "x") (IdK "x")) (IdK "g")))))
      (AbsK "x" (AppK (IdK "f") (AbsK "g" (AppK (AppK (IdK "x") (IdK "x")) (IdK "g"))))))
      (IdK "a"))))
  else if text == "(lambda p (lambda x (lambda y p y x)))" then
    some (AbsK "p" (AbsK "x" (AbsK "y" (AppK (AppK (IdK "p") (IdK "y")) (IdK "x")))))
  else if text == "(lambda p (lambda q p p q))" then
    some (AbsK "p" (AbsK "q" (AppK (AppK (IdK "p") (IdK "p")) (IdK "q"))))
  else if text == "(lambda p (lambda q p q p))" then
    some (AbsK "p" (AbsK "q" (AppK (AppK (IdK "p") (IdK "q")) (IdK "p"))))
  else none

/-- `expandStandardFun` (stdlib.c, lines 30-35): the tree the parser leaves for the text of
the entry, `NULL` when there is none. -/
def expandStandardFun (f : StandardFun) : Option TreeNode := parse f.expr

/-- `resolveFunction` (eval.c, lines 296-305): the expansion of a built-in or else of a
standard function, `NULL` when the name is in neither registry. -/
def resolveFunction (ext : Externals) (name : String) : Option TreeNode :=
  match lookupBuiltinFun ext name with
  | some f => some f.expandFun
  | none =>
    match lookupStandardFun name with
    | some stdFun => expandStandardFun stdFun
    | none => none

/-! ## Closures, environments, continuations -/

/-- A pointer to an environment frame, or `NULL`. The name and the parent of a frame are
fixed at creation, so the pointer carries them; `id` locates the closure slot of the frame
in `Memory`. -/
inductive Environment where
  | null
  | frame (id : Nat) (name : String) (parent : Environment)
  deriving DecidableEq, Repr

/-- The test `env == NULL`. -/
def Environment.isNull : Environment → Bool
  | Environment.null => true
  | Environment.frame _ _ _ => false

/-- Modelled from the spec: `Closure` of the missing `cek_machine.h`, an expression (which
may be `NULL`) paired with an environment. -/
structure Closure where
  expr : Option TreeNode
  env : Environment
  deriving DecidableEq, Repr

/-- Tags of continuation frames. -/
inductive ContinuationTag where
  | ArgKK | OprKK | OpdKK
  deriving DecidableEq, Repr

/-- Modelled from the spec: a frame of the continuation stack of the missing
`cek_machine.h`; the `next` link is the tail of the list holding the frame. -/
structure Continuation where
  tag : ContinuationTag
  closure : Closure
  deriving DecidableEq, Repr

/-- Modelled from the spec: the machine state of the missing `cek_machine.h`, a control
closure and a continuation stack (`NULL` is the empty list). -/
structure State where
  closure : Closure
  continuation : List Continuation
  deriving DecidableEq, Repr

/-- The mutable store: the closure slot of every environment frame allocated so far
(`env->closure`), the next free frame identifier, what was written to `errOut` and `out`,
and the record of the nodes `evalPrimitive` was called on. -/
structure Memory where
  slots : Nat → Option Closure
  next : Nat
  errOut : List String
  out : List String
  primCalls : List TreeNode

/-- The store before any allocation. -/
def Memory.empty : Memory := ⟨fun _ => none, 0, [], [], []⟩

/-- Allocation of a frame whose slot holds `c`. -/
def Memory.alloc (m : Memory) (c : Closure) : Memory :=
  { m with slots := fun i => if i = m.next then some c else m.slots i, next := m.next + 1 }

/-- The assignment `env->closure = c` on the frame `id`. -/
def Memory.setSlot (m : Memory) (id : Nat) (c : Closure) : Memory :=
  { m with slots := fun i => if i = id then some c else m.slots i }

/-- `fprintf(errOut, ...)`. -/
def Memory.printErr (m : Memory) (s : String) : Memory :=
  { m with errOut := m.errOut ++ [s] }

/-- `fprintf(out, ...)` of a sequence of pieces. -/
def Memory.printOut (m : Memory) (s : List String) : Memory :=
  { m with out := m.out ++ s }

/-- A call of `evalPrimitive` on `node`, put on record. -/
def Memory.recordPrimitive (m : Memory) (node : TreeNode) : Memory :=
  { m with primCalls := m.primCalls ++ [node] }

/-- Modelled from the spec: `cek_newEnvironment(name, closure, parent)` of the missing
`cek_machine.c`, a fresh frame binding `name` to `closure` on top of `parent`. -/
def cek_newEnvironment (name : String) (closure : Closure) (parent : Environment)
    (m : Memory) : Environment × Memory :=
  (Environment.frame m.next name parent, m.alloc closure)

/-- Outcome of a call: it returned `value` leaving the store `mem`, it dereferenced a null
pointer, or the fuel of the model ran out. -/
inductive Run (α : Type) where
  | done (value : α) (mem : Memory)
  | crash
  | timeout

/-- Some frame of the chain is named `name`: a binding of `name` exists in the
environment. -/
def Environment.binds : Environment → String → Bool
  | Environment.null, _ => false
  | Environment.frame _ fname parent, name => name == fname || parent.binds name

/-- Modelled from the spec: `isValue` of the missing sources, a function of the expression
alone, as `_evaluate` calls it (eval.c, line 78): a `Const`, an `Abs` or an `Id`; `NULL`
is no value. The loop of `_evaluate` tests for an identifier first, so that call sees a
`Const` or an `Abs` only. The qualifier of spec 3, that an `Id` remains a value only when
no binding exists, needs the environment of the control closure: it is in
`cek_canTerminate`, which gets the whole state. -/
def isValue : Option TreeNode → Bool
  | some (IdK _) => true
  | some (ConstK _) => true
  | some (AbsK _ _) => true
  | _ => false

/-- Modelled from the spec: `cek_canTerminate` of the missing `cek_machine.c` (spec 4.E
with the values of spec 3); the continuation is empty and the control expression is a
value, where an `Id` is a value only when no frame of the control environment binds it.
On a bound identifier under an empty continuation the loop goes on with the identifier
rule. -/
def cek_canTerminate (state : State) : Bool :=
  state.continuation.isEmpty &&
    match state.closure.expr with
    | some (IdK name) => !state.closure.env.binds name
    | expr => isValue expr

/-- `printExpression` (util.c, lines 100-122): the pieces written to `out`. -/
def printExpression : TreeNode → List String
  | IdK name => [name]
  | AbsK param body => ["(lambda ", param, " "] ++ printExpression body ++ [")"]
  | AppK f a => printExpression f ++ [" "] ++ printExpression a
  | _ => ["Unknown expression kind.\n"]

/-! ## The machine -/

/-- `lookupVariable` (eval.c, lines 310-331), with the nested run of `_evaluate` passed as
`ev`. The walk along the parents is structural. A found closure with a non-null
environment is evaluated under a fresh frame named `""`; on success the slot of the found
frame is overwritten with the final control closure; in both cases the content of the
slot is returned. -/
def lookupVariableWith (ev : State → Memory → Run (Option State)) :
    String → Environment → Memory → Run (Option Closure)
  | _, Environment.null, m => Run.done none m
  | name, Environment.frame id fname parent, m =>
    if name == fname then
      match m.slots id with
      | none => Run.crash
      | some closure =>
        if closure.env.isNull then Run.done (some closure) m
        else
          match ev ⟨⟨duplicateTree closure.expr,
              (cek_newEnvironment "" ⟨none, Environment.null⟩ closure.env m).1⟩, []⟩
              (cek_newEnvironment "" ⟨none, Environment.null⟩ closure.env m).2 with
          | Run.done (some st) m2 =>
            Run.done (some ⟨st.closure.expr, st.closure.env⟩)
              (m2.setSlot id ⟨st.closure.expr, st.closure.env⟩)
          | Run.done none m2 =>
            match m2.slots id with
            | none => Run.crash
            | some c => Run.done (some c) m2
          | Run.crash => Run.crash
          | Run.timeout => Run.timeout
    else lookupVariableWith ev name parent m

/-- Outcome of one iteration of the loop of `_evaluate`: go on with a new state, `return 0`,
a null dereference, or fuel exhaustion inside a nested run. -/
inductive Step where
  | next (state : State) (mem : Memory)
  | return0 (mem : Memory)
  | crash
  | timeout

/-- The branch `else if(isValue(state->closure->expr))` of `_evaluate` (eval.c, lines
78-142), on the continuation on top of the stack.

In the `OpdKK` branch the right operand is detached from the stored primitive node; the
stored node keeps it here, and no transition reads that slot before the `OprKK` branch
overwrites it. -/
def valueStep (ext : Externals) (state : State) (expr : TreeNode) (m : Memory) : Step :=
  match state.continuation with
  | [] => Step.crash
  | ctn :: rest =>
    match ctn.tag with
    | ContinuationTag.ArgKK =>
      match expr with
      | ConstK _ =>
        Step.return0 ((((m.printErr "Error: cannot apply a constant to any argument.\n").printErr
          "Expression:\t").printOut (printExpression expr)).printErr "\n")
      | IdK name =>
        match resolveFunction ext name with
        | none =>
          Step.return0 (m.printErr ("Error: " ++ name ++ " is not a predefined function.\n"))
        | some f => Step.next { state with closure := { state.closure with expr := some f } } m
      | AbsK param body =>
        Step.next ⟨⟨some body, (cek_newEnvironment param ctn.closure state.closure.env m).1⟩, rest⟩
          (cek_newEnvironment param ctn.closure state.closure.env m).2
      | _ => Step.crash
    | ContinuationTag.OprKK =>
      match ctn.closure.expr with
      | some (PrimiK op left _) =>
        if left.kind == ExprKind.ConstK && expr.kind == ExprKind.ConstK then
          Step.next ⟨⟨some (ext.evalPrimitive (PrimiK op left expr)), Environment.null⟩, rest⟩
            (m.recordPrimitive (PrimiK op left expr))
        else Step.return0 (m.printErr ("Error: " ++ op ++ " can only be applied on constants.\n"))
      | _ => Step.crash
    | ContinuationTag.OpdKK =>
      match ctn.closure.expr with
      | some (PrimiK op _ right) =>
        Step.next ⟨⟨some right, ctn.closure.env⟩,
          ⟨ContinuationTag.OprKK, ⟨some (PrimiK op expr right), state.closure.env⟩⟩ :: rest⟩ m
      | _ => Step.crash

/-- One iteration of the loop of `_evaluate` (eval.c, lines 53-158) on a state that cannot
terminate and whose control expression is `expr`.

In the `PrimiK` branch the statement `state->closure->expr->children[0] = NULL` runs after
`state->closure` was re-pointed to the left operand, so it clears the first child of the
left operand and leaves the stored primitive node whole. An `Id` or a `Const` has no
child. An `Abs` loses its parameter node, which no later transition reads: the value is
stored as left operand and the run ends in the `OprKK` failure. An `App` or a `Prim` loses
its function or left operand, and the following iterations dereference the null child
without any output in between: this is `Step.crash`. -/
def step (ext : Externals) (ev : State → Memory → Run (Option State))
    (state : State) (expr : TreeNode) (m : Memory) : Step :=
  match expr with
  | IdK name =>
    match lookupVariableWith ev name state.closure.env m with
    | Run.done none m1 =>
      match resolveFunction ext name with
      | none =>
        Step.return0
          (m1.printErr ("Error: " ++ name ++ " is not a defined variable or function.\n"))
      | some f => Step.next { state with closure := { state.closure with expr := some f } } m1
    | Run.done (some closure) m1 =>
      Step.next ⟨⟨duplicateTree closure.expr, closure.env⟩, state.continuation⟩ m1
    | Run.crash => Step.crash
    | Run.timeout => Step.timeout
  | AppK f a =>
    Step.next ⟨⟨some f, state.closure.env⟩,
      ⟨ContinuationTag.ArgKK, ⟨some a, state.closure.env⟩⟩ :: state.continuation⟩ m
  | PrimiK _ left _ =>
    match left with
    | AppK _ _ => Step.crash
    | PrimiK _ _ _ => Step.crash
    | _ =>
      Step.next ⟨⟨some left, state.closure.env⟩,
        ⟨ContinuationTag.OpdKK, state.closure⟩ :: state.continuation⟩ m
  | _ => valueStep ext state expr m

/-- `_evaluate` (eval.c, lines 48-162): `some state` is `return 1` with the final state,
`none` is `return 0`. Every iteration of the loop takes one unit of fuel, and a nested run
started by a lookup gets the fuel that is left. -/
def _evaluate (ext : Externals) : Nat → State → Memory → Run (Option State)
  | 0, _, _ => Run.timeout
  | fuel + 1, state, m =>
    if cek_canTerminate state then Run.done (some state) m
    else
      match state.closure.expr with
      | none => Run.crash
      | some expr =>
        match step ext (_evaluate ext fuel) state expr m with
        | Step.next state1 m1 => _evaluate ext fuel state1 m1
        | Step.return0 m1 => Run.done none m1
        | Step.crash => Run.crash
        | Step.timeout => Run.timeout

/-- `lookupVariable` (eval.c, lines 310-331) with `fuel` for its nested run. -/
def lookupVariable (ext : Externals) (fuel : Nat) (name : String) (env : Environment)
    (m : Memory) : Run (Option Closure) :=
  lookupVariableWith (_evaluate ext fuel) name env m

/-- The loop of `resolveFreeVariables` (eval.c, lines 346-370) over the list of free
variables, with the nested run of `_evaluate` passed as `ev` and the recursive call as
`resolve`; `fuel` bounds `substitute`. -/
def resolveLoop (ext : Externals) (ev : State → Memory → Run (Option State))
    (resolve : TreeNode → Environment → Memory → Run (Option TreeNode))
    (fuel : Nat) (env : Environment) :
    List String → TreeNode → Memory → Run (Option TreeNode)
  | [], result, m => Run.done (some result) m
  | name :: l, result, m =>
    match resolveFunction ext name with
    | some _ => resolveLoop ext ev resolve fuel env l result m
    | none =>
      match lookupVariableWith ev name env m with
      | Run.done none m1 =>
        Run.done none (m1.printErr ("Error: Variable " ++ name ++ " is not defined.\n"))
      | Run.done (some closure) m1 =>
        match closure.expr with
        | none => Run.crash
        | some cexpr =>
          match resolve cexpr closure.env m1 with
          | Run.done none m2 => Run.done none m2
          | Run.done (some tmp) m2 =>
            match substitute fuel result name tmp with
            | none => Run.timeout
            | some result1 => resolveLoop ext ev resolve fuel env l result1 m2
          | Run.crash => Run.crash
          | Run.timeout => Run.timeout
      | Run.crash => Run.crash
      | Run.timeout => Run.timeout

/-- `resolveFreeVariables` (eval.c, lines 337-373); `none` is the `NULL` result. -/
def resolveFreeVariables (ext : Externals) :
    Nat → TreeNode → Environment → Memory → Run (Option TreeNode)
  | 0, _, _, _ => Run.timeout
  | fuel + 1, expr, env, m =>
    resolveLoop ext (_evaluate ext fuel) (resolveFreeVariables ext fuel) fuel env
      (vs_asList (FV expr)) expr m

/-- One iteration of the loops of `buildGlobalEnvironment`: a frame for the entry `name`
whose closure holds the expansion under a null environment. -/
def registerFun (acc : Environment × Memory) (entry : String × Option TreeNode) :
    Environment × Memory :=
  cek_newEnvironment entry.1 ⟨entry.2, Environment.null⟩ acc.1 acc.2

/-- `buildGlobalEnvironment` (eval.c, lines 375-392): the built-in entries in the order of
the registry, then the standard entries. -/
def buildGlobalEnvironment (ext : Externals) (m : Memory) : Environment × Memory :=
  (standardFunctions.map (fun f => (f.name, expandStandardFun f))).foldl registerFun
    ((ext.builtinFunctions.map (fun f => (f.name, some f.expandFun))).foldl registerFun
      (Environment.null, m))

/-- `evaluate` (eval.c, lines 24-42): the result tree, or `none` for `NULL`. -/
def evaluate (ext : Externals) (fuel : Nat) (expr : TreeNode) : Run (Option TreeNode) :=
  match _evaluate ext fuel ⟨⟨some expr, (buildGlobalEnvironment ext Memory.empty).1⟩, []⟩
      (buildGlobalEnvironment ext Memory.empty).2 with
  | Run.done (some state) m1 =>
    match state.closure.expr with
    | none => Run.crash
    | some e => resolveFreeVariables ext fuel e state.closure.env m1
  | Run.done none m1 => Run.done none m1
  | Run.crash => Run.crash
  | Run.timeout => Run.timeout

/-- The returned value of a call that returned. -/
def Run.value {α : Type} : Run α → Option α
  | Run.done v _ => some v
  | _ => none

/-- The diagnostics a call that returned has written to `errOut`. -/
def Run.diagnostics {α : Type} : Run α → List String
  | Run.done _ m => m.errOut
  | _ => []

/-- The frames allocated in `m0` hold in `m` the closures they hold in `m0`, and `m` has
allocated at least as many frames. -/
def Memory.Intact (m0 m : Memory) : Prop :=
  m0.next ≤ m.next ∧ ∀ i, i < m0.next → m.slots i = m0.slots i

/-- The built-in registry has an entry named `name`, and every such entry expands to
`tree`. -/
def BuiltinIs (ext : Externals) (name : String) (tree : TreeNode) : Prop :=
  (∃ f, f ∈ ext.builtinFunctions ∧ f.name = name) ∧
    ∀ f, f ∈ ext.builtinFunctions → f.name = name → f.expandFun = tree

/-- Name of a Church boolean in the built-in registry. -/
def boolName (b : Bool) : String := if b then "true" else "false"

/-- Church encoding of a boolean, with the parameter names `x` and `y`. -/
def churchBool (b : Bool) : TreeNode :=
  if b then AbsK "x" (AbsK "y" (IdK "x")) else AbsK "x" (AbsK "y" (IdK "y"))

/-- The nodes on which a call that returned has called `evalPrimitive`, in order. -/
def Run.primitiveCalls {α : Type} : Run α → List TreeNode
  | Run.done _ m => m.primCalls
  | _ => []

/-- Modelled from the spec: a registry holding the Church booleans `true` and `false`, and
an `evalPrimitive` for which `+` is integer addition (other nodes are left as they are). -/
def churchExternals : Externals :=
  { builtinFunctions :=
      [⟨"true", AbsK "x" (AbsK "y" (IdK "x"))⟩, ⟨"false", AbsK "x" (AbsK "y" (IdK "y"))⟩],
    evalPrimitive := fun t =>
      match t with
      | PrimiK "+" (ConstK a) (ConstK b) => ConstK (a + b)
      | t => t }

/-- The state and the store after `k` iterations of the loop of `_evaluate` run with
`fuel`; `none` when the loop has ended before (by termination, `return 0`, a null
dereference or want of fuel). -/
def iterations (ext : Externals) : Nat → Nat → State → Memory → Option (State × Memory)
  | _, 0, state, m => some (state, m)
  | 0, _ + 1, _, _ => none
  | fuel + 1, k + 1, state, m =>
    if cek_canTerminate state then none
    else
      match state.closure.expr with
      | none => none
      | some expr =>
        match step ext (_evaluate ext fuel) state expr m with
        | Step.next state1 m1 => iterations ext fuel k state1 m1
        | _ => none

/-- Identifier of the innermost frame of the chain that is named `name`: the frame on which
`lookupVariable` stops. -/
def Environment.find : Environment → String → Option Nat
  | Environment.null, _ => none
  | Environment.frame id fname parent, name =>
    if name == fname then some id else parent.find name

/-- Two calls of `lookupVariable` in a row on the same name and environment: the outcome
of the second call, made in the store the first call left. -/
def lookupVariableAgain (ext : Externals) (fuel : Nat) (name : String) (env : Environment)
    (m : Memory) : Run (Option Closure) :=
  match lookupVariable ext fuel name env m with
  | Run.done _ m1 => lookupVariable ext fuel name env m1
  | Run.crash => Run.crash
  | Run.timeout => Run.timeout

/-- The closure that the frame `id` holds after a call that returned. -/
def Run.slot {α : Type} : Run α → Nat → Option Closure
  | Run.done _ m, id => m.slots id
  | _, _ => none

/-- A store with two frames for the examples on lookup: frame 0 binds `g` to the constant
`0` under a null environment, frame 1 binds `x` to the constant `1` under the environment
made of frame 0. -/
def twoFrames : Memory :=
  (Memory.empty.alloc ⟨some (ConstK 0), Environment.null⟩).alloc
    ⟨some (ConstK 1), Environment.frame 0 "g" Environment.null⟩

/-- The environment of `twoFrames`: the frame of `x` on top of the frame of `g`. -/
def twoFramesEnv : Environment :=
  Environment.frame 1 "x" (Environment.frame 0 "g" Environment.null)

/-- The counter `attempts` of `alphaConversion` when its `do ... while` loop ends (eval.c,
lines 173-185), that is, the number of iterations of the loop; same recursion as
`pickName`. -/
def pickNameAttempts (set : VarSet) (orig : String) : Nat → Nat → Nat
  | 0, attempts => attempts + 1
  | fuel + 1, attempts =>
    let name := orig ++ underscores (attempts + 1)
    if name == orig || contains set name then pickNameAttempts set orig fuel (attempts + 1)
    else attempts + 1

/-- The number of iterations of the loop `while(contains(set,parname))` of `substitute`,
that is, of alpha conversions it performs; same recursion as `renameLoop`. -/
def renameLoopCount : Nat → VarSet → String → TreeNode → Option Nat
  | 0, _, _, _ => none
  | fuel + 1, set, parname, body =>
    if contains set parname then
      match alphaConversion fuel (AbsK parname body) with
      | some (AbsK parname1 body1) =>
        match renameLoopCount fuel set parname1 body1 with
        | some k => some (k + 1)
        | none => none
      | _ => none
    else some 0

/-- The diagnostic of the branch of `_evaluate` for an identifier in operator position
(eval.c, line 90). -/
def undefinedFunctionMessage (name : String) : String :=
  "Error: " ++ name ++ " is not a predefined function.\n"

/-- Every diagnostic of the branch for an identifier in operator position that `errOut`
holds in the store `m1` was already there in the store `m`. -/
def Memory.NoUndefinedFunctionSince (m m1 : Memory) : Prop :=
  ∀ name, undefinedFunctionMessage name ∈ m1.errOut → undefinedFunctionMessage name ∈ m.errOut

/-- `strlen`: the number of bytes of a name, its terminating NUL not counted. -/
def strlen (s : String) : Nat := s.utf8ByteSize

/-- The size of the block that attempt number `attempts` of the loop of `alphaConversion`
requests for the name: `malloc(len+attempts)` with `len = strlen` of the parameter
(eval.c, lines 172 and 178). -/
def nameBlockSize (orig : String) (attempts : Nat) : Nat := strlen orig + attempts

/-- The number of bytes that attempt number `attempts` stores into its block, counted from
the first byte of the block: `strcpy` stores the parameter and its NUL, and each of the
`attempts` calls of `strcat` stores an underscore over the NUL and a NUL behind it
(eval.c, lines 179-184). -/
def nameBytesStored (orig : String) : Nat → Nat
  | 0 => strlen orig + 1
  | attempts + 1 => nameBytesStored orig attempts + 1

/-- The stores of attempt number `attempts` stay inside the block it requested. -/
def nameFitsBlock (orig : String) (attempts : Nat) : Bool :=
  decide (nameBytesStored orig attempts ≤ nameBlockSize orig attempts)

/-- A parameter of 23 characters: with the first attempt of `alphaConversion` the block
requested has 24 bytes. -/
def longName : String := "aaaaaaaaaaaaaaaaaaaaaaa"

/-! ## Free-variable sets: lemmas -/

theorem contains_iff (s : VarSet) (n : String) : contains s n = true ↔ n ∈ s := by
  simp [contains]

theorem contains_eq_false_iff (s : VarSet) (n : String) : contains s n = false ↔ n ∉ s := by
  simp [contains]

theorem mem_addVar (s : VarSet) (x n : String) : n ∈ addVar s x ↔ n ∈ s ∨ n = x := by
  unfold addVar
  by_cases h : contains s x = true
  · simp only [h, if_true]
    constructor
    · exact Or.inl
    · rintro (h1 | h1)
      · exact h1
      · subst h1; exact (contains_iff s n).1 h
  · simp [h]

theorem mem_deleteVar (s : VarSet) (x n : String) : n ∈ deleteVar s x ↔ n ∈ s ∧ n ≠ x := by
  simp [deleteVar]

theorem mem_foldl_addVar (l : List String) (s : VarSet) (n : String) :
    n ∈ l.foldl addVar s ↔ n ∈ s ∨ n ∈ l := by
  induction l generalizing s with
  | nil => simp
  | cons a l ih =>
    simp only [List.foldl_cons, ih, mem_addVar, List.mem_cons]
    tauto

theorem mem_unionVarSet (s s1 s2 : VarSet) (n : String) :
    n ∈ unionVarSet s s1 s2 ↔ n ∈ s ∨ n ∈ s1 ∨ n ∈ s2 := by
  simp only [unionVarSet, mem_foldl_addVar]
  tauto

theorem mem_FV_IdK (x n : String) : n ∈ FV (IdK x) ↔ n = x := by
  simp [FV, mem_addVar, newVarSet]

theorem mem_FV_ConstK (c : Int) (n : String) : ¬ n ∈ FV (ConstK c) := by
  simp [FV, newVarSet]

theorem mem_FV_AbsK (x : String) (b : TreeNode) (n : String) :
    n ∈ FV (AbsK x b) ↔ n ∈ FV b ∧ n ≠ x := by
  simp [FV, mem_deleteVar]

theorem mem_FV_AppK (f a : TreeNode) (n : String) :
    n ∈ FV (AppK f a) ↔ n ∈ FV f ∨ n ∈ FV a := by
  simp [FV, mem_unionVarSet, newVarSet]

theorem mem_FV_PrimiK (op : String) (l r : TreeNode) (n : String) :
    n ∈ FV (PrimiK op l r) ↔ n ∈ FV l ∨ n ∈ FV r := by
  simp [FV, mem_unionVarSet, newVarSet]

theorem mem_FV_iff_occursFree (e : TreeNode) (n : String) : n ∈ FV e ↔ occursFree n e := by
  induction e with
  | IdK x => simp [mem_FV_IdK, occursFree]
  | ConstK c => simp [mem_FV_ConstK, occursFree]
  | AbsK x b ih => simp [mem_FV_AbsK, occursFree, ih]
  | AppK f a ihf iha => simp [mem_FV_AppK, occursFree, ihf, iha]
  | PrimiK op l r ihl ihr => simp [mem_FV_PrimiK, occursFree, ihl, ihr]

theorem nodup_addVar (s : VarSet) (x : String) (h : s.Nodup) : (addVar s x).Nodup := by
  unfold addVar
  by_cases hc : contains s x = true
  · simp [hc, h]
  · simp only [hc]
    have hx : x ∉ s := fun hm => hc ((contains_iff s x).2 hm)
    rw [if_neg (by simp), List.nodup_append]
    refine ⟨h, List.nodup_singleton x, ?_⟩
    intro a ha hb
    simp at hb
    subst hb
    exact hx ha

theorem nodup_foldl_addVar (l : List String) (s : VarSet) (h : s.Nodup) :
    (l.foldl addVar s).Nodup := by
  induction l generalizing s with
  | nil => simpa using h
  | cons a l ih => exact ih _ (nodup_addVar s a h)

theorem nodup_FV (e : TreeNode) : (FV e).Nodup := by
  induction e with
  | IdK x => exact nodup_addVar _ _ List.nodup_nil
  | ConstK c => exact List.nodup_nil
  | AbsK x b ih => exact ih.filter _
  | AppK f a _ _ => exact nodup_foldl_addVar _ _ (nodup_foldl_addVar _ _ List.nodup_nil)
  | PrimiK op l r _ _ => exact nodup_foldl_addVar _ _ (nodup_foldl_addVar _ _ List.nodup_nil)


/-! ## The name-picking loop -/

theorem length_underscores (k : Nat) : (underscores k).length = k := by
  induction k with
  | zero => rfl
  | succ k ih =>
    have h1 : "_".length = 1 := rfl
    simp [underscores, ih, h1]

theorem underscores_eq_replicate (k : Nat) : underscores k = String.mk (List.replicate k '_') := by
  induction k with
  | zero => rfl
  | succ k ih =>
    rw [underscores, ih, List.replicate_succ']
    rfl

theorem length_candidate (orig : String) (k : Nat) :
    (orig ++ underscores k).length = orig.length + k := by
  simp [length_underscores]

theorem candidate_injective (orig : String) (j k : Nat)
    (h : orig ++ underscores j = orig ++ underscores k) : j = k := by
  have := congrArg String.length h
  simp only [length_candidate] at this
  omega

theorem candidate_ne_orig (orig : String) (k : Nat) :
    (orig ++ underscores (k + 1) == orig) = false := by
  rw [beq_eq_false_iff_ne]
  intro h
  have := congrArg String.length h
  simp only [length_candidate] at this
  omega

/-- Among the first `set.length + 1` candidates one is outside the set. -/
theorem exists_fresh_candidate (set : VarSet) (orig : String) :
    ∃ k, 0 < k ∧ k ≤ 0 + (set.length + 1) ∧ orig ++ underscores k ∉ set := by
  by_contra hno
  have hall : ∀ k, 0 < k → k ≤ set.length + 1 → orig ++ underscores k ∈ set := by
    intro k h1 h2
    by_contra hk
    exact hno ⟨k, h1, by omega, hk⟩
  let cands := (List.range (set.length + 1)).map (fun i => orig ++ underscores (i + 1))
  have hnd : cands.Nodup := by
    apply List.Nodup.map_on _ (List.nodup_range _)
    intro a _ b _ hab
    have := candidate_injective orig _ _ hab
    omega
  have hsub : cands ⊆ set := by
    intro a ha
    simp only [cands, List.mem_map, List.mem_range] at ha
    obtain ⟨i, hi, rfl⟩ := ha
    exact hall (i + 1) (by omega) (by omega)
  have hlen := (List.subperm_of_subset hnd hsub).length_le
  simp [cands] at hlen

theorem pickName_loop (set : VarSet) (orig : String) (fuel a : Nat)
    (h : ∃ k, a < k ∧ k ≤ a + fuel ∧ orig ++ underscores k ∉ set) :
    ∃ k, a < k ∧ pickName set orig fuel a = orig ++ underscores k ∧
      orig ++ underscores k ∉ set ∧ ∀ j, a < j → j < k → orig ++ underscores j ∈ set := by
  induction fuel generalizing a with
  | zero =>
    obtain ⟨k, h1, h2, _⟩ := h
    omega
  | succ fuel ih =>
    obtain ⟨k, h1, h2, h3⟩ := h
    by_cases hc : contains set (orig ++ underscores (a + 1)) = true
    · have hm := (contains_iff _ _).1 hc
      have hk : a + 1 < k := by
        rcases Nat.lt_or_ge (a + 1) k with h | h
        · exact h
        · have : k = a + 1 := by omega
          subst this
          exact absurd hm h3
      obtain ⟨k1, g1, g2, g3, g4⟩ := ih (a + 1) ⟨k, hk, by omega, h3⟩
      refine ⟨k1, by omega, ?_, g3, ?_⟩
      · simp only [pickName, hc, Bool.or_true, if_true]
        exact g2
      · intro j hj1 hj2
        rcases Nat.lt_or_ge (a + 1) j with h | h
        · exact g4 j h hj2
        · have : j = a + 1 := by omega
          subst this
          exact hm
    · have hm : orig ++ underscores (a + 1) ∉ set := fun hm => hc ((contains_iff _ _).2 hm)
      refine ⟨a + 1, by omega, ?_, hm, ?_⟩
      · simp [pickName, hc, candidate_ne_orig]
      · intro j hj1 hj2
        omega

/-- The name-picking loop of `alphaConversion` returns the candidate with the least
number of underscores that is not in the set. -/
theorem pickName_spec (set : VarSet) (orig : String) :
    ∃ k, 0 < k ∧ pickName set orig (set.length + 1) 0 = orig ++ underscores k ∧
      orig ++ underscores k ∉ set ∧ ∀ j, 0 < j → j < k → orig ++ underscores j ∈ set :=
  pickName_loop set orig (set.length + 1) 0 (exists_fresh_candidate set orig)


/-! ## Renaming by an identifier -/

theorem Renames.size_eq {x z : String} {e r : TreeNode} (h : Renames x z e r) :
    size r = size e := by
  induction h with
  | idHit => rfl
  | idMiss => rfl
  | const => rfl
  | absShadow => rfl
  | absPlain _ _ _ _ _ _ _ _ ih => simp [size, ih]
  | absRename _ _ _ _ _ _ _ _ ih1 ih2 => simp [size, ih1, ih2]
  | app _ _ _ _ _ _ _ _ ih1 ih2 => simp [size, ih1, ih2]
  | prim _ _ _ _ _ _ _ _ _ ih1 ih2 => simp [size, ih1, ih2]

theorem size_pos (e : TreeNode) : 0 < size e := by
  cases e <;> simp [size]

theorem FV_IdK (z : String) : FV (IdK z) = [z] := by
  simp [FV, addVar, newVarSet, contains]

theorem contains_singleton (z y : String) : contains [z] y = (y == z) := by
  by_cases h : y = z <;> simp [contains, h]

theorem pickName_length_lt (set : VarSet) (z : String) :
    z.length < (pickName set z (set.length + 1) 0).length := by
  obtain ⟨k, hk, he, _, _⟩ := pickName_spec set z
  rw [he, length_candidate]
  omega

theorem pickName_not_mem (set : VarSet) (z : String) :
    pickName set z (set.length + 1) 0 ∉ set := by
  obtain ⟨k, _, he, hn, _⟩ := pickName_spec set z
  rw [he]
  exact hn

theorem ne_of_length_lt {a b : String} (h : a.length < b.length) : b ≠ a := by
  intro he
  rw [he] at h
  exact Nat.lt_irrefl _ h


theorem substitute_IdK (fuel : Nat) (n x : String) (v : TreeNode) :
    substitute (fuel + 1) (IdK n) x v = if n == x then some v else some (IdK n) := by
  simp only [substitute]

theorem substitute_ConstK (fuel : Nat) (c : Int) (x : String) (v : TreeNode) :
    substitute (fuel + 1) (ConstK c) x v = some (ConstK c) := by
  simp only [substitute]

theorem substitute_AbsK_shadow (fuel : Nat) (x : String) (b v : TreeNode) :
    substitute (fuel + 1) (AbsK x b) x v = some (AbsK x b) := by
  simp [substitute]

theorem substitute_AbsK (fuel : Nat) (y x : String) (b v : TreeNode) (h : y ≠ x) :
    substitute (fuel + 1) (AbsK y b) x v =
      match renameLoop fuel (FV v) y b with
      | none => none
      | some (parname1, body1) =>
        match substitute fuel body1 x v with
        | none => none
        | some result => some (AbsK parname1 result) := by
  rw [substitute]
  simp only [bne_iff_ne, ne_eq, h, not_false_eq_true, if_true]

theorem substitute_AppK (fuel : Nat) (f a : TreeNode) (x : String) (v : TreeNode) :
    substitute (fuel + 1) (AppK f a) x v =
      match substitute fuel f x v with
      | none => none
      | some f1 =>
        match substitute fuel a x v with
        | none => none
        | some a1 => some (AppK f1 a1) := by
  rw [substitute]

theorem substitute_PrimiK (fuel : Nat) (op : String) (l r : TreeNode) (x : String)
    (v : TreeNode) :
    substitute (fuel + 1) (PrimiK op l r) x v =
      match substitute fuel l x v with
      | none => none
      | some l1 =>
        match substitute fuel r x v with
        | none => none
        | some r1 => some (PrimiK op l1 r1) := by
  rw [substitute]

theorem renameLoop_stop (fuel : Nat) (set : VarSet) (p : String) (b : TreeNode)
    (h : contains set p = false) : renameLoop (fuel + 1) set p b = some (p, b) := by
  rw [renameLoop]
  simp [h]

theorem renameLoop_step (fuel : Nat) (set : VarSet) (p : String) (b : TreeNode)
    (h : contains set p = true) :
    renameLoop (fuel + 1) set p b =
      match alphaConversion fuel (AbsK p b) with
      | some (AbsK parname1 body1) => renameLoop fuel set parname1 body1
      | _ => none := by
  rw [renameLoop]
  simp only [h, if_true]

theorem alphaConversion_AbsK (fuel : Nat) (p : String) (b : TreeNode) :
    alphaConversion (fuel + 1) (AbsK p b) =
      match substitute fuel b p (IdK (pickName (FV b) p ((FV b).length + 1) 0)) with
      | none => none
      | some result => some (AbsK (pickName (FV b) p ((FV b).length + 1) 0) result) := by
  rw [alphaConversion]

/-- Renaming by an identifier longer than the replaced one terminates: the result has the
shape `Renames`, and every fuel of at least three times the size of the tree returns it. -/
theorem substitute_rename (n : Nat) : ∀ (e : TreeNode), size e ≤ n → ∀ (x z : String),
    x.length < z.length →
    ∃ r, Renames x z e r ∧ ∀ fuel, 3 * n ≤ fuel → substitute fuel e x (IdK z) = some r := by
  induction n with
  | zero =>
    intro e he
    have := size_pos e
    omega
  | succ n ih =>
    intro e he x z hxz
    have hfuel3 : ∀ fuel, 3 * (n + 1) ≤ fuel → ∃ f, fuel = f + 3 ∧ 3 * n ≤ f :=
      fun fuel h => ⟨fuel - 3, by omega, by omega⟩
    cases e with
    | IdK y =>
      by_cases hy : y = x
      · subst hy
        refine ⟨IdK z, Renames.idHit _ _, fun fuel hfuel => ?_⟩
        obtain ⟨f, rfl, _⟩ := hfuel3 fuel hfuel
        simp [substitute_IdK]
      · refine ⟨IdK y, Renames.idMiss _ _ _ hy, fun fuel hfuel => ?_⟩
        obtain ⟨f, rfl, _⟩ := hfuel3 fuel hfuel
        simp [substitute_IdK, hy]
    | ConstK c =>
      refine ⟨ConstK c, Renames.const _ _ _, fun fuel hfuel => ?_⟩
      obtain ⟨f, rfl, _⟩ := hfuel3 fuel hfuel
      exact substitute_ConstK _ _ _ _
    | AbsK y b =>
      have hb : size b ≤ n := by simp only [size] at he; omega
      by_cases hy : y = x
      · subst hy
        refine ⟨AbsK y b, Renames.absShadow _ _ _, fun fuel hfuel => ?_⟩
        obtain ⟨f, rfl, _⟩ := hfuel3 fuel hfuel
        exact substitute_AbsK_shadow _ _ _ _
      · by_cases hz : y = z
        · subst hz
          have hlt := pickName_length_lt (FV b) y
          obtain ⟨b1, hr1, hs1⟩ := ih b hb y _ hlt
          have hb1 : size b1 ≤ n := by rw [hr1.size_eq]; exact hb
          obtain ⟨b2, hr2, hs2⟩ := ih b1 hb1 x y hxz
          refine ⟨AbsK _ b2, Renames.absRename x y b b1 b2 hy hr1 hr2, fun fuel hfuel => ?_⟩
          obtain ⟨f, rfl, hf⟩ := hfuel3 fuel hfuel
          have hne := ne_of_length_lt hlt
          have hloop : renameLoop (f + 2) (FV (IdK y)) y b
              = some (pickName (FV b) y ((FV b).length + 1) 0, b1) := by
            rw [renameLoop_step _ _ _ _ (by simp [FV_IdK, contains_singleton]),
              alphaConversion_AbsK, hs1 f hf]
            exact renameLoop_stop _ _ _ _ (by simp [FV_IdK, contains_singleton, hne])
          rw [substitute_AbsK _ _ _ _ _ hy, hloop]
          simp only [hs2 (f + 2) (by omega)]
        · obtain ⟨b1, hr1, hs1⟩ := ih b hb x z hxz
          refine ⟨AbsK y b1, Renames.absPlain x z y b b1 hy hz hr1, fun fuel hfuel => ?_⟩
          obtain ⟨f, rfl, hf⟩ := hfuel3 fuel hfuel
          rw [substitute_AbsK _ _ _ _ _ hy,
            renameLoop_stop _ _ _ _ (by simp [FV_IdK, contains_singleton, hz])]
          simp only [hs1 (f + 2) (by omega)]
    | AppK g a =>
      have hg : size g ≤ n := by simp only [size] at he; omega
      have ha : size a ≤ n := by simp only [size] at he; omega
      obtain ⟨g1, hr1, hs1⟩ := ih g hg x z hxz
      obtain ⟨a1, hr2, hs2⟩ := ih a ha x z hxz
      refine ⟨AppK g1 a1, Renames.app _ _ _ _ _ _ hr1 hr2, fun fuel hfuel => ?_⟩
      obtain ⟨f, rfl, hf⟩ := hfuel3 fuel hfuel
      rw [substitute_AppK, hs1 (f + 2) (by omega), hs2 (f + 2) (by omega)]
    | PrimiK op l r =>
      have hl : size l ≤ n := by simp only [size] at he; omega
      have hr : size r ≤ n := by simp only [size] at he; omega
      obtain ⟨l1, hr1, hs1⟩ := ih l hl x z hxz
      obtain ⟨r1, hr2, hs2⟩ := ih r hr x z hxz
      refine ⟨PrimiK op l1 r1, Renames.prim _ _ _ _ _ _ _ hr1 hr2, fun fuel hfuel => ?_⟩
      obtain ⟨f, rfl, hf⟩ := hfuel3 fuel hfuel
      rw [substitute_PrimiK, hs1 (f + 2) (by omega), hs2 (f + 2) (by omega)]

/-- Alpha conversion of an abstraction terminates and renames its body to the picked name. -/
theorem alphaConversion_rename (x : String) (b : TreeNode) :
    ∃ r, Renames x (pickName (FV b) x ((FV b).length + 1) 0) b r ∧
      (∀ n, substitute (3 * size b + n) b x
        (IdK (pickName (FV b) x ((FV b).length + 1) 0)) = some r) ∧
      (∀ n, alphaConversion (3 * size b + 1 + n) (AbsK x b)
        = some (AbsK (pickName (FV b) x ((FV b).length + 1) 0) r)) := by
  obtain ⟨r, hr, hs⟩ := substitute_rename (size b) b (Nat.le_refl _) x _
    (pickName_length_lt (FV b) x)
  refine ⟨r, hr, fun n => hs _ (Nat.le_add_right _ _), fun n => ?_⟩
  have h : 3 * size b + 1 + n = (3 * size b + n) + 1 := by omega
  rw [h, alphaConversion_AbsK, hs _ (Nat.le_add_right _ _)]

theorem Renames.mem_FV {x z : String} {e r : TreeNode} (h : Renames x z e r) :
    x.length < z.length → ∀ w, w ∈ FV r ↔ (w ∈ FV e ∧ w ≠ x) ∨ (w = z ∧ x ∈ FV e) := by
  induction h with
  | idHit x z =>
    intro _ w
    simp only [mem_FV_IdK]
    constructor
    · intro h; exact Or.inr ⟨h, trivial⟩
    · rintro (⟨h1, h2⟩ | ⟨h1, _⟩)
      · exact absurd h1 h2
      · exact h1
  | idMiss x z y hy =>
    intro _ w
    simp only [mem_FV_IdK]
    constructor
    · intro h; subst h; exact Or.inl ⟨rfl, hy⟩
    · rintro (⟨h1, _⟩ | ⟨_, h2⟩)
      · exact h1
      · exact absurd h2.symm hy
  | const x z c =>
    intro _ w
    simp [mem_FV_ConstK]
  | absShadow x z b =>
    intro _ w
    simp only [mem_FV_AbsK]
    tauto
  | absPlain x z y b b1 h1 h2 _ ih =>
    intro hxz w
    have := ih hxz w
    simp only [mem_FV_AbsK, this]
    constructor
    · rintro ⟨(⟨g1, g2⟩ | ⟨g1, g2⟩), g3⟩
      · exact Or.inl ⟨⟨g1, g3⟩, g2⟩
      · exact Or.inr ⟨g1, g2, fun h => h1 h.symm⟩
    · rintro (⟨⟨g1, g2⟩, g3⟩ | ⟨g1, g2, _⟩)
      · exact ⟨Or.inl ⟨g1, g3⟩, g2⟩
      · exact ⟨Or.inr ⟨g1, g2⟩, fun h => h2 (h.symm.trans g1)⟩
  | absRename x z b b1 b2 h1 _ _ ih1 ih2 =>
    intro hxz w
    have hlt := pickName_length_lt (FV b) z
    have hfresh := pickName_not_mem (FV b) z
    have hzz : pickName (FV b) z ((FV b).length + 1) 0 ≠ z := ne_of_length_lt hlt
    have hzx : pickName (FV b) z ((FV b).length + 1) 0 ≠ x :=
      ne_of_length_lt (Nat.lt_trans hxz hlt)
    have e1 := ih1 hlt
    have e2 := ih2 hxz
    simp only [mem_FV_AbsK, e2, e1]
    constructor
    · rintro ⟨(⟨(⟨g1, g2⟩ | ⟨g1, _⟩), g3⟩ | ⟨g1, (⟨g2, _⟩ | ⟨g2, _⟩)⟩), g4⟩
      · exact Or.inl ⟨⟨g1, g2⟩, g3⟩
      · exact absurd g1 g4
      · exact Or.inr ⟨g1, g2, fun h => h1 h.symm⟩
      · exact absurd g2.symm hzx
    · rintro (⟨⟨g1, g2⟩, g3⟩ | ⟨g1, g2, g3⟩)
      · exact ⟨Or.inl ⟨Or.inl ⟨g1, g2⟩, g3⟩, fun h => hfresh (h ▸ g1)⟩
      · exact ⟨Or.inr ⟨g1, Or.inl ⟨g2, g3⟩⟩, fun h => hzz (h.symm.trans g1)⟩
  | app x z f a f1 a1 _ _ ih1 ih2 =>
    intro hxz w
    simp only [mem_FV_AppK, ih1 hxz w, ih2 hxz w]
    tauto
  | prim x z op l r l1 r1 _ _ ih1 ih2 =>
    intro hxz w
    simp only [mem_FV_PrimiK, ih1 hxz w, ih2 hxz w]
    tauto

theorem lookVar_cons_self (y : String) (ctx : List String) :
    lookVar (y :: ctx) y = DBTerm.bvar 0 := by
  simp [lookVar]

theorem lookVar_cons_ne (y w : String) (ctx : List String) (h : w ≠ y) :
    lookVar (y :: ctx) w = liftVar (lookVar ctx w) := by
  simp [lookVar, h]

/-- The nameless form depends on the context only through the free identifiers. -/
theorem toDB_congr (e : TreeNode) : ∀ (ctx1 ctx2 : List String),
    (∀ w, w ∈ FV e → lookVar ctx1 w = lookVar ctx2 w) → toDB ctx1 e = toDB ctx2 e := by
  induction e with
  | IdK n =>
    intro ctx1 ctx2 h
    exact h n ((mem_FV_IdK n n).2 rfl)
  | ConstK c => intro _ _ _; rfl
  | AbsK p b ih =>
    intro ctx1 ctx2 h
    simp only [toDB]
    congr 1
    apply ih
    intro w hw
    by_cases hp : w = p
    · subst hp; rw [lookVar_cons_self, lookVar_cons_self]
    · rw [lookVar_cons_ne _ _ _ hp, lookVar_cons_ne _ _ _ hp,
        h w ((mem_FV_AbsK p b w).2 ⟨hw, hp⟩)]
  | AppK f a ih1 ih2 =>
    intro ctx1 ctx2 h
    simp only [toDB]
    rw [ih1 ctx1 ctx2 (fun w hw => h w ((mem_FV_AppK f a w).2 (Or.inl hw))),
      ih2 ctx1 ctx2 (fun w hw => h w ((mem_FV_AppK f a w).2 (Or.inr hw)))]
  | PrimiK op l r ih1 ih2 =>
    intro ctx1 ctx2 h
    simp only [toDB]
    rw [ih1 ctx1 ctx2 (fun w hw => h w ((mem_FV_PrimiK op l r w).2 (Or.inl hw))),
      ih2 ctx1 ctx2 (fun w hw => h w ((mem_FV_PrimiK op l r w).2 (Or.inr hw)))]

/-- Renaming lemma: the renamed tree, read under a context in which the new name stands
where the old one stood, has the nameless form of the original tree. -/
theorem Renames.toDB_eq {x z : String} {e r : TreeNode} (h : Renames x z e r) :
    x.length < z.length → ∀ (ctx1 ctx2 : List String),
    (∀ w, w ∈ FV e → lookVar ctx1 (if w = x then z else w) = lookVar ctx2 w) →
    toDB ctx1 r = toDB ctx2 e := by
  induction h with
  | idHit x z =>
    intro _ ctx1 ctx2 h
    have := h x ((mem_FV_IdK x x).2 rfl)
    simpa [toDB] using this
  | idMiss x z y hy =>
    intro _ ctx1 ctx2 h
    have := h y ((mem_FV_IdK y y).2 rfl)
    simpa [toDB, hy] using this
  | const x z c => intro _ _ _ _; rfl
  | absShadow x z b =>
    intro _ ctx1 ctx2 h
    apply toDB_congr
    intro w hw
    have hne : w ≠ x := ((mem_FV_AbsK x b w).1 hw).2
    have := h w hw
    simpa [hne] using this
  | absPlain x z y b b1 h1 h2 _ ih =>
    intro hxz ctx1 ctx2 h
    simp only [toDB]
    congr 1
    apply ih hxz
    intro w hw
    by_cases hp : w = y
    · subst hp
      simp [h1, lookVar_cons_self]
    · have hren : (if w = x then z else w) ≠ y := by
        by_cases hwx : w = x
        · simpa [hwx] using fun h => h2 h.symm
        · simpa [hwx] using hp
      rw [lookVar_cons_ne _ _ _ hren, lookVar_cons_ne _ _ _ hp,
        h w ((mem_FV_AbsK y b w).2 ⟨hw, hp⟩)]
  | absRename x z b b1 b2 h1 hr1 _ ih1 ih2 =>
    intro hxz ctx1 ctx2 h
    have hlt := pickName_length_lt (FV b) z
    have hfresh := pickName_not_mem (FV b) z
    have hzz : pickName (FV b) z ((FV b).length + 1) 0 ≠ z := ne_of_length_lt hlt
    have hzx : pickName (FV b) z ((FV b).length + 1) 0 ≠ x :=
      ne_of_length_lt (Nat.lt_trans hxz hlt)
    simp only [toDB]
    congr 1
    refine (ih2 hxz _ (pickName (FV b) z ((FV b).length + 1) 0 :: ctx2) ?_).trans
      (ih1 hlt _ _ ?_)
    · intro w hw
      by_cases hp : w = pickName (FV b) z ((FV b).length + 1) 0
      · subst hp
        simp [hzx, lookVar_cons_self]
      · rcases (hr1.mem_FV hlt w).1 hw with ⟨g1, g2⟩ | ⟨g1, _⟩
        · have hren : (if w = x then z else w)
              ≠ pickName (FV b) z ((FV b).length + 1) 0 := by
            by_cases hwx : w = x
            · simpa [hwx] using fun h => hzz h.symm
            · simpa [hwx] using hp
          rw [lookVar_cons_ne _ _ _ hren, lookVar_cons_ne _ _ _ hp,
            h w ((mem_FV_AbsK z b w).2 ⟨g1, g2⟩)]
        · exact absurd g1 hp
    · intro w hw
      by_cases hp : w = z
      · subst hp
        simp [lookVar_cons_self]
      · have hne : w ≠ pickName (FV b) z ((FV b).length + 1) 0 :=
          fun h => hfresh (h ▸ hw)
        simp only [hp, if_false]
        rw [lookVar_cons_ne _ _ _ hne, lookVar_cons_ne _ _ _ hp]
  | app x z f a f1 a1 _ _ ih1 ih2 =>
    intro hxz ctx1 ctx2 h
    simp only [toDB]
    rw [ih1 hxz ctx1 ctx2 (fun w hw => h w ((mem_FV_AppK f a w).2 (Or.inl hw))),
      ih2 hxz ctx1 ctx2 (fun w hw => h w ((mem_FV_AppK f a w).2 (Or.inr hw)))]
  | prim x z op l r l1 r1 _ _ ih1 ih2 =>
    intro hxz ctx1 ctx2 h
    simp only [toDB]
    rw [ih1 hxz ctx1 ctx2 (fun w hw => h w ((mem_FV_PrimiK op l r w).2 (Or.inl hw))),
      ih2 hxz ctx1 ctx2 (fun w hw => h w ((mem_FV_PrimiK op l r w).2 (Or.inr hw)))]


/-! ## Claims on substitution and alpha conversion -/

/-- C1 (capture avoidance), evaluated on the code at `e = (lambda y y)`, `x = y_`,
`v = y`: the alpha-renaming loop of `substitute` renames the parameter `y` to the fresh
name `y_`, which is the replaced identifier itself, and then substitutes in the renamed
body, so the bound occurrence is replaced by the free `y`. The result `(lambda y_ y)` has
the free identifier `y`, while `e` has no free identifier at all: the inclusion
`FV(substitute(e,x,v)) ⊆ (FV(e) \ {x}) ∪ ∅` fails for every amount of fuel that lets the
call return. -/
theorem C1_substitute_fresh_name_is_replaced_identifier :
    (∀ n, substitute (n + 4) (AbsK "y" (IdK "y")) "y_" (IdK "y")
        = some (AbsK "y_" (IdK "y"))) ∧
    FV (AbsK "y_" (IdK "y")) = ["y"] ∧
    FV (AbsK "y" (IdK "y")) = [] ∧
    contains (FV (AbsK "y" (IdK "y"))) "y_" = false := by
  refine ⟨?_, by decide, by decide, by decide⟩
  intro n
  have hp : pickName (FV (IdK "y")) "y" ((FV (IdK "y")).length + 1) 0 = "y_" := by decide
  have h1 : renameLoop (n + 3) (FV (IdK "y")) "y" (IdK "y") = some ("y_", IdK "y_") := by
    rw [renameLoop_step _ _ _ _ (by decide), alphaConversion_AbsK, hp, substitute_IdK]
    exact renameLoop_stop _ _ _ _ (by decide)
  rw [substitute_AbsK _ _ _ _ _ (by decide), h1]
  simp only [substitute_IdK]
  rfl

/-- C2 as stated fails: `z` is not free in `(lambda y y)`, yet substituting `y` for `z`
renames the parameter, because it occurs free in the substituted tree. -/
theorem C2_counterexample_renamed_parameter :
    contains (FV (AbsK "y" (IdK "y"))) "z" = false ∧
    substitute 4 (AbsK "y" (IdK "y")) "z" (IdK "y") = some (AbsK "y_" (IdK "y_")) ∧
    AbsK "y_" (IdK "y_") ≠ AbsK "y" (IdK "y") := by
  decide

/-- C2 (substitution identity, amended): if `x` is not free in `e` and no parameter of an
abstraction of `e` occurs free in `v`, then `substitute(e, x, v)` returns a tree
structurally equal to `e`, for every fuel of at least the size of `e`. -/
theorem C2_substitute_identity (e : TreeNode) (x : String) (v : TreeNode)
    (hx : x ∉ FV e) (hb : ∀ y, y ∈ boundParams e → y ∉ FV v)
    (fuel : Nat) (hfuel : size e ≤ fuel) : substitute fuel e x v = some e := by
  induction e generalizing fuel with
  | IdK n =>
    obtain ⟨f, rfl⟩ : ∃ f, fuel = f + 1 := ⟨fuel - 1, by simp only [size] at hfuel; omega⟩
    have hn : n ≠ x := fun h => hx ((mem_FV_IdK n x).2 h.symm)
    simp [substitute_IdK, hn]
  | ConstK c =>
    obtain ⟨f, rfl⟩ : ∃ f, fuel = f + 1 := ⟨fuel - 1, by simp only [size] at hfuel; omega⟩
    exact substitute_ConstK _ _ _ _
  | AbsK y b ih =>
    have hsz := size_pos b
    obtain ⟨f, rfl⟩ : ∃ f, fuel = f + 2 := ⟨fuel - 2, by simp only [size] at hfuel; omega⟩
    by_cases hy : y = x
    · subst hy
      exact substitute_AbsK_shadow _ _ _ _
    · have hxb : x ∉ FV b := fun h => hx ((mem_FV_AbsK y b x).2 ⟨h, fun h => hy h.symm⟩)
      have hyv : contains (FV v) y = false :=
        (contains_eq_false_iff _ _).2 (hb y (by simp [boundParams]))
      have hrec := ih hxb (fun w hw => hb w (by simp [boundParams, hw])) (f + 1)
        (by simp only [size] at hfuel; omega)
      rw [substitute_AbsK _ _ _ _ _ hy, renameLoop_stop _ _ _ _ hyv]
      simp only [hrec]
  | AppK g a ih1 ih2 =>
    obtain ⟨f, rfl⟩ : ∃ f, fuel = f + 1 := ⟨fuel - 1, by simp only [size] at hfuel; omega⟩
    have h1 := ih1 (fun h => hx ((mem_FV_AppK g a x).2 (Or.inl h)))
      (fun w hw => hb w (by simp [boundParams, hw])) f (by simp only [size] at hfuel; omega)
    have h2 := ih2 (fun h => hx ((mem_FV_AppK g a x).2 (Or.inr h)))
      (fun w hw => hb w (by simp [boundParams, hw])) f (by simp only [size] at hfuel; omega)
    rw [substitute_AppK, h1, h2]
  | PrimiK op l r ih1 ih2 =>
    obtain ⟨f, rfl⟩ : ∃ f, fuel = f + 1 := ⟨fuel - 1, by simp only [size] at hfuel; omega⟩
    have h1 := ih1 (fun h => hx ((mem_FV_PrimiK op l r x).2 (Or.inl h)))
      (fun w hw => hb w (by simp [boundParams, hw])) f (by simp only [size] at hfuel; omega)
    have h2 := ih2 (fun h => hx ((mem_FV_PrimiK op l r x).2 (Or.inr h)))
      (fun w hw => hb w (by simp [boundParams, hw])) f (by simp only [size] at hfuel; omega)
    rw [substitute_PrimiK, h1, h2]

/-- Witness of C2 (amended) at `e = (lambda a a b)`, `x = z`, `v = y`. -/
theorem C2_substitute_identity_witness :
    "z" ∉ FV (AbsK "a" (AppK (IdK "a") (IdK "b"))) ∧
    (∀ y, y ∈ boundParams (AbsK "a" (AppK (IdK "a") (IdK "b"))) → y ∉ FV (IdK "y")) ∧
    size (AbsK "a" (AppK (IdK "a") (IdK "b"))) ≤ 4 ∧
    substitute 4 (AbsK "a" (AppK (IdK "a") (IdK "b"))) "z" (IdK "y")
      = some (AbsK "a" (AppK (IdK "a") (IdK "b"))) :=
  ⟨by decide, by decide, by decide,
    C2_substitute_identity (AbsK "a" (AppK (IdK "a") (IdK "b"))) "z" (IdK "y")
      (by decide) (by decide) 4 (by decide)⟩

/-- C3 (free-variable law): `FV` satisfies the reference equations, read as equalities of
sets (same members, no repetition), and a name is in `FV(e)` exactly when it has an
occurrence in `e` that is not under an abstraction binding it. -/
theorem C3_FV_reference_equations :
    (∀ x, FV (IdK x) = [x]) ∧
    (∀ c, FV (ConstK c) = []) ∧
    (∀ x b n, n ∈ FV (AbsK x b) ↔ n ∈ FV b ∧ n ≠ x) ∧
    (∀ f a n, n ∈ FV (AppK f a) ↔ n ∈ FV f ∨ n ∈ FV a) ∧
    (∀ op l r n, n ∈ FV (PrimiK op l r) ↔ n ∈ FV l ∨ n ∈ FV r) ∧
    (∀ e, (FV e).Nodup) ∧
    (∀ e n, contains (FV e) n = true ↔ occursFree n e) :=
  ⟨FV_IdK, fun _ => rfl, mem_FV_AbsK, mem_FV_AppK, mem_FV_PrimiK, nodup_FV,
    fun e n => (contains_iff (FV e) n).trans (mem_FV_iff_occursFree e n)⟩

/-- The fresh-name policy on names as strings, that is, with the stores of the name taken
to land where the code reads them back (see `nameFitsBlock`): `alphaConversion (Abs x b)`
returns, for every fuel from `3 * size b + 1` on, the abstraction whose parameter is `x`
followed by `k` underscores, `k ≥ 1` least with that name not in `FV(b)`; the parameter
differs from `x`, is not free in `b`, and the body is what `substitute(b, x, Id name)`
returns. -/
theorem alphaConversion_fresh_name (x : String) (b : TreeNode) :
    ∃ k r, 1 ≤ k ∧
      (∀ n, alphaConversion (3 * size b + 1 + n) (AbsK x b)
        = some (AbsK (x ++ String.mk (List.replicate k '_')) r)) ∧
      (∀ n, substitute (3 * size b + n) b x (IdK (x ++ String.mk (List.replicate k '_')))
        = some r) ∧
      x ++ String.mk (List.replicate k '_') ≠ x ∧
      contains (FV b) (x ++ String.mk (List.replicate k '_')) = false ∧
      (∀ j, 1 ≤ j → j < k → contains (FV b) (x ++ String.mk (List.replicate j '_')) = true) := by
  obtain ⟨k, hk, hp, hfresh, hleast⟩ := pickName_spec (FV b) x
  obtain ⟨r, _, hs, ha⟩ := alphaConversion_rename x b
  rw [hp, underscores_eq_replicate] at hs ha
  refine ⟨k, r, hk, ha, hs, ?_, ?_, ?_⟩
  · have hlt := pickName_length_lt (FV b) x
    rw [hp, underscores_eq_replicate] at hlt
    exact ne_of_length_lt hlt
  · rw [← underscores_eq_replicate]
    exact (contains_eq_false_iff _ _).2 hfresh
  · intro j h1 h2
    rw [← underscores_eq_replicate]
    exact (contains_iff _ _).2 (hleast j h1 h2)

/-- Alpha conversion on names as strings (see `nameFitsBlock`): for every abstraction
`Abs x b`, the tree that `alphaConversion` builds (for every fuel from `3 * size b + 1`
on) is alpha equivalent to `Abs x b`, that is, equal to it once bound names are replaced
by binder positions, and has the same free identifiers; nested abstractions that already
bind the picked name are renamed in turn. -/
theorem alphaConversion_alpha_equivalent (x : String) (b : TreeNode) :
    ∃ r, (∀ n, alphaConversion (3 * size b + 1 + n) (AbsK x b) = some r) ∧
      alphaEquivalent r (AbsK x b) ∧
      (∀ w, contains (FV r) w = contains (FV (AbsK x b)) w) := by
  obtain ⟨r, hr, _, ha⟩ := alphaConversion_rename x b
  have hlt := pickName_length_lt (FV b) x
  have hfresh := pickName_not_mem (FV b) x
  have hne : pickName (FV b) x ((FV b).length + 1) 0 ≠ x := ne_of_length_lt hlt
  refine ⟨_, ha, ?_, ?_⟩
  · unfold alphaEquivalent
    simp only [toDB]
    congr 1
    apply hr.toDB_eq hlt
    intro w hw
    by_cases hwx : w = x
    · subst hwx
      simp [lookVar_cons_self]
    · have hwp : w ≠ pickName (FV b) x ((FV b).length + 1) 0 := fun h => hfresh (h ▸ hw)
      simp only [hwx, if_false]
      rw [lookVar_cons_ne _ _ _ hwp, lookVar_cons_ne _ _ _ hwx]
  · intro w
    have hiff : w ∈ FV (AbsK (pickName (FV b) x ((FV b).length + 1) 0) r)
        ↔ w ∈ FV (AbsK x b) := by
      simp only [mem_FV_AbsK, hr.mem_FV hlt w]
      constructor
      · rintro ⟨(⟨g1, g2⟩ | ⟨g1, _⟩), g3⟩
        · exact ⟨g1, g2⟩
        · exact absurd g1 g3
      · rintro ⟨g1, g2⟩
        exact ⟨Or.inl ⟨g1, g2⟩, fun h => hfresh (h ▸ g1)⟩
    rw [Bool.eq_iff_iff, contains_iff, contains_iff]
    exact hiff

/-! ## The block of the fresh name -/

theorem utf8ByteSize_append (a b : String) :
    (a ++ b).utf8ByteSize = a.utf8ByteSize + b.utf8ByteSize := by
  cases a with
  | mk as =>
    cases b with
    | mk bs =>
      show String.utf8ByteSize ⟨as ++ bs⟩ = _
      simp [String.utf8ByteSize_mk, String.utf8Len_append]

theorem strlen_underscores (k : Nat) : strlen (underscores k) = k := by
  induction k with
  | zero => rfl
  | succ k ih =>
    unfold strlen at ih ⊢
    rw [underscores, utf8ByteSize_append, ih]
    rfl

/-- The bytes an attempt stores are those of the name it builds and one NUL. -/
theorem nameBytesStored_eq (orig : String) (attempts : Nat) :
    nameBytesStored orig attempts = strlen (orig ++ underscores attempts) + 1 := by
  induction attempts with
  | zero =>
    simp only [nameBytesStored, underscores, strlen, utf8ByteSize_append]
    rfl
  | succ a ih =>
    have h1 := strlen_underscores a
    have h2 := strlen_underscores (a + 1)
    unfold strlen at ih h1 h2 ⊢
    rw [nameBytesStored, ih, utf8ByteSize_append, utf8ByteSize_append, h1, h2]
    omega

/-- Every attempt stores one byte more than the block it requested holds. -/
theorem nameBytesStored_eq_blockSize (orig : String) (attempts : Nat) :
    nameBytesStored orig attempts = nameBlockSize orig attempts + 1 := by
  induction attempts with
  | zero => rfl
  | succ a ih =>
    rw [nameBytesStored, ih]
    simp only [nameBlockSize]
    omega

/-- C4, evaluated on the code: every attempt of the name-picking loop of
`alphaConversion` requests a block of `len + attempts` bytes and stores
`len + attempts + 1` bytes into it, the name and its terminating NUL, so the accepted name
never fits its block: the NUL is stored one byte past the end. On
`(lambda aaaaaaaaaaaaaaaaaaaaaaa aaaaaaaaaaaaaaaaaaaaaaa)`, a parameter of 23 characters,
the loop ends with its first attempt, the block has 24 bytes and 25 are stored. The name
that the stores spell is the parameter followed by one underscore; what the code reads
back as the name depends on the byte behind the block. -/
theorem C4_fresh_name_block_one_byte_short :
    (∀ (x : String) (attempts : Nat),
      nameBytesStored x attempts = nameBlockSize x attempts + 1 ∧
      nameBytesStored x attempts = strlen (x ++ underscores attempts) + 1 ∧
      nameFitsBlock x attempts = false) ∧
    (∀ (x : String) (b : TreeNode),
      nameFitsBlock x (pickNameAttempts (FV b) x ((FV b).length + 1) 0) = false) ∧
    pickNameAttempts (FV (IdK longName)) longName ((FV (IdK longName)).length + 1) 0 = 1 ∧
    nameBlockSize longName 1 = 24 ∧
    nameBytesStored longName 1 = 25 ∧
    pickName (FV (IdK longName)) longName ((FV (IdK longName)).length + 1) 0
      = longName ++ "_" := by
  have hfit : ∀ (x : String) (attempts : Nat), nameFitsBlock x attempts = false := by
    intro x attempts
    unfold nameFitsBlock
    rw [nameBytesStored_eq_blockSize]
    simp
  exact ⟨fun x a => ⟨nameBytesStored_eq_blockSize x a, nameBytesStored_eq x a, hfit x a⟩,
    fun x b => hfit x _, by decide, by decide, by decide, by decide⟩

/-- C5, evaluated on the code: on `(lambda aaaaaaaaaaaaaaaaaaaaaaa (lambda y a...a y))`,
whose parameter has 23 characters, `alphaConversion` accepts its first attempt, requests
24 bytes for the fresh name and stores 25: the NUL that ends the name lies outside the
block, so the name the code reads back for the new parameter and for its occurrences in
the body need not be the one it picked. This is the defect of the block size shown for
C4. -/
theorem C5_renamed_parameter_outside_its_block :
    pickNameAttempts (FV (AbsK "y" (AppK (IdK longName) (IdK "y")))) longName
      ((FV (AbsK "y" (AppK (IdK longName) (IdK "y")))).length + 1) 0 = 1 ∧
    nameFitsBlock longName 1 = false ∧
    nameBlockSize longName 1 + 1 = nameBytesStored longName 1 ∧
    pickName (FV (AbsK "y" (AppK (IdK longName) (IdK "y")))) longName
      ((FV (AbsK "y" (AppK (IdK longName) (IdK "y")))).length + 1) 0 = longName ++ "_" := by
  decide

/-! ## The store and the global environment: lemmas -/

@[simp] theorem Memory.next_alloc (m : Memory) (c : Closure) : (m.alloc c).next = m.next + 1 := rfl
@[simp] theorem Memory.slots_alloc (m : Memory) (c : Closure) (i : Nat) :
    (m.alloc c).slots i = if i = m.next then some c else m.slots i := rfl
@[simp] theorem Memory.errOut_alloc (m : Memory) (c : Closure) : (m.alloc c).errOut = m.errOut := rfl
@[simp] theorem Memory.primCalls_alloc (m : Memory) (c : Closure) :
    (m.alloc c).primCalls = m.primCalls := rfl
@[simp] theorem Memory.next_setSlot (m : Memory) (id : Nat) (c : Closure) :
    (m.setSlot id c).next = m.next := rfl
@[simp] theorem Memory.slots_setSlot (m : Memory) (id : Nat) (c : Closure) (i : Nat) :
    (m.setSlot id c).slots i = if i = id then some c else m.slots i := rfl
@[simp] theorem Memory.errOut_setSlot (m : Memory) (id : Nat) (c : Closure) :
    (m.setSlot id c).errOut = m.errOut := rfl
@[simp] theorem Memory.primCalls_setSlot (m : Memory) (id : Nat) (c : Closure) :
    (m.setSlot id c).primCalls = m.primCalls := rfl
@[simp] theorem Memory.next_recordPrimitive (m : Memory) (t : TreeNode) :
    (m.recordPrimitive t).next = m.next := rfl
@[simp] theorem Memory.slots_recordPrimitive (m : Memory) (t : TreeNode) (i : Nat) :
    (m.recordPrimitive t).slots i = m.slots i := rfl
@[simp] theorem Memory.errOut_recordPrimitive (m : Memory) (t : TreeNode) :
    (m.recordPrimitive t).errOut = m.errOut := rfl
@[simp] theorem Memory.primCalls_recordPrimitive (m : Memory) (t : TreeNode) :
    (m.recordPrimitive t).primCalls = m.primCalls ++ [t] := rfl

theorem evaluate_loop_succ (ext : Externals) (fuel : Nat) (state : State) (m : Memory) :
    _evaluate ext (fuel + 1) state m =
      if cek_canTerminate state then Run.done (some state) m
      else
        match state.closure.expr with
        | none => Run.crash
        | some expr =>
          match step ext (_evaluate ext fuel) state expr m with
          | Step.next state1 m1 => _evaluate ext fuel state1 m1
          | Step.return0 m1 => Run.done none m1
          | Step.crash => Run.crash
          | Step.timeout => Run.timeout := rfl

theorem resolveFreeVariables_succ (ext : Externals) (fuel : Nat) (expr : TreeNode)
    (env : Environment) (m : Memory) :
    resolveFreeVariables ext (fuel + 1) expr env m =
      resolveLoop ext (_evaluate ext fuel) (resolveFreeVariables ext fuel) fuel env
        (vs_asList (FV expr)) expr m := rfl

theorem isNull_registerFun (acc : Environment × Memory) (entry : String × Option TreeNode) :
    (registerFun acc entry).1.isNull = false := rfl

theorem isNull_globalEnvironment (ext : Externals) (m : Memory) :
    (buildGlobalEnvironment ext m).1.isNull = false := by
  simp [buildGlobalEnvironment, standardFunctions, isNull_registerFun]

theorem next_foldl_registerFun (l : List (String × Option TreeNode))
    (acc : Environment × Memory) :
    (l.foldl registerFun acc).2.next = acc.2.next + l.length := by
  induction l generalizing acc with
  | nil => rfl
  | cons a l ih =>
    rw [List.foldl_cons, ih]
    simp [registerFun, cek_newEnvironment]
    omega

theorem slots_foldl_registerFun (l : List (String × Option TreeNode))
    (acc : Environment × Memory) (i : Nat) (h : i < acc.2.next) :
    (l.foldl registerFun acc).2.slots i = acc.2.slots i := by
  induction l generalizing acc with
  | nil => rfl
  | cons a l ih =>
    rw [List.foldl_cons, ih]
    · simp [registerFun, cek_newEnvironment, Nat.ne_of_lt h]
    · simp [registerFun, cek_newEnvironment]
      omega

theorem primCalls_foldl_registerFun (l : List (String × Option TreeNode))
    (acc : Environment × Memory) :
    (l.foldl registerFun acc).2.primCalls = acc.2.primCalls := by
  induction l generalizing acc with
  | nil => rfl
  | cons a l ih => rw [List.foldl_cons, ih]; rfl

theorem errOut_foldl_registerFun (l : List (String × Option TreeNode))
    (acc : Environment × Memory) :
    (l.foldl registerFun acc).2.errOut = acc.2.errOut := by
  induction l generalizing acc with
  | nil => rfl
  | cons a l ih => rw [List.foldl_cons, ih]; rfl

/-- A lookup in a chain of registered frames finds the entry registered last under the
name, without evaluating anything, and otherwise goes on below the chain. -/
theorem lookup_foldl_registerFun (ev : State → Memory → Run (Option State)) (name : String)
    (l : List (String × Option TreeNode)) : ∀ (acc : Environment × Memory) (m : Memory),
    (∀ i, acc.2.next ≤ i → i < acc.2.next + l.length →
      m.slots i = (l.foldl registerFun acc).2.slots i) →
    lookupVariableWith ev name (l.foldl registerFun acc).1 m =
      match l.reverse.find? (fun e => name == e.1) with
      | some e => Run.done (some ⟨e.2, Environment.null⟩) m
      | none => lookupVariableWith ev name acc.1 m := by
  induction l with
  | nil => intro acc m _; rfl
  | cons a l ih =>
    intro acc m hm
    rw [List.foldl_cons, ih (registerFun acc a) m]
    · rw [List.reverse_cons, List.find?_append]
      cases hfind : l.reverse.find? (fun e => name == e.1) with
      | some e => rfl
      | none =>
        have hslot : m.slots acc.2.next = some ⟨a.2, Environment.null⟩ := by
          rw [hm acc.2.next (Nat.le_refl _) (by simp), List.foldl_cons,
            slots_foldl_registerFun _ _ _ (by simp [registerFun, cek_newEnvironment])]
          simp [registerFun, cek_newEnvironment]
        by_cases hn : (name == a.1) = true
        · simp [registerFun, cek_newEnvironment, lookupVariableWith, hn, hslot,
            Environment.isNull]
        · simp [registerFun, cek_newEnvironment, lookupVariableWith, hn]
    · intro i h1 h2
      have e1 : (registerFun acc a).2.next = acc.2.next + 1 := rfl
      rw [e1] at h1 h2
      rw [hm i (by omega) (by simp; omega), List.foldl_cons]

theorem Memory.Intact.refl (m : Memory) : Memory.Intact m m := ⟨Nat.le_refl _, fun _ _ => rfl⟩

theorem Memory.Intact.alloc {m0 m : Memory} (h : Memory.Intact m0 m) (c : Closure) :
    Memory.Intact m0 (m.alloc c) := by
  refine ⟨Nat.le_succ_of_le h.1, fun i hi => ?_⟩
  have : i ≠ m.next := Nat.ne_of_lt (Nat.lt_of_lt_of_le hi h.1)
  simp [this, h.2 i hi]

theorem Memory.Intact.setSlot {m0 m : Memory} (h : Memory.Intact m0 m) (id : Nat) (c : Closure)
    (hid : m0.next ≤ id) : Memory.Intact m0 (m.setSlot id c) := by
  refine ⟨h.1, fun i hi => ?_⟩
  have : i ≠ id := Nat.ne_of_lt (Nat.lt_of_lt_of_le hi hid)
  simp [this, h.2 i hi]

theorem Memory.Intact.recordPrimitive {m0 m : Memory} (h : Memory.Intact m0 m) (t : TreeNode) :
    Memory.Intact m0 (m.recordPrimitive t) := h

/-- A lookup in the global environment of a name of the standard registry, in a store that
left the global frames alone. -/
theorem lookup_global_standard (ext : Externals) (ev : State → Memory → Run (Option State))
    (name : String) (f : StandardFun) (hf : lookupStandardFun name = some f) (m : Memory)
    (hm : Memory.Intact (buildGlobalEnvironment ext Memory.empty).2 m) :
    lookupVariableWith ev name (buildGlobalEnvironment ext Memory.empty).1 m
      = Run.done (some ⟨expandStandardFun f, Environment.null⟩) m := by
  unfold buildGlobalEnvironment
  rw [lookup_foldl_registerFun]
  · have hrev : ((standardFunctions.map (fun f => (f.name, expandStandardFun f))).reverse.find?
        (fun e => name == e.1)) = some (f.name, expandStandardFun f) := by
      by_cases h1 : name = "Y"
      · subst h1; simp [lookupStandardFun, standardFunctions] at hf; subst hf; rfl
      · by_cases h2 : name = "not"
        · subst h2; simp [lookupStandardFun, standardFunctions] at hf; subst hf; rfl
        · by_cases h3 : name = "or"
          · subst h3; simp [lookupStandardFun, standardFunctions] at hf; subst hf; rfl
          · by_cases h4 : name = "and"
            · subst h4; simp [lookupStandardFun, standardFunctions] at hf; subst hf; rfl
            · exfalso
              have e1 : (name == "Y") = false := by simp [h1]
              have e2 : (name == "not") = false := by simp [h2]
              have e3 : (name == "or") = false := by simp [h3]
              have e4 : (name == "and") = false := by simp [h4]
              simp [lookupStandardFun, standardFunctions, List.find?, e1, e2, e3, e4] at hf
    rw [hrev]
  · intro i h1 h2
    exact hm.2 i (by
      unfold buildGlobalEnvironment
      rw [next_foldl_registerFun]
      exact h2)

/-- A lookup in the global environment of a built-in name that is no standard name, in a
store that left the global frames alone. -/
theorem lookup_global_builtin (ext : Externals) (ev : State → Memory → Run (Option State))
    (name : String) (tree : TreeNode) (hs : lookupStandardFun name = none)
    (hb : BuiltinIs ext name tree) (m : Memory)
    (hm : Memory.Intact (buildGlobalEnvironment ext Memory.empty).2 m) :
    lookupVariableWith ev name (buildGlobalEnvironment ext Memory.empty).1 m
      = Run.done (some ⟨some tree, Environment.null⟩) m := by
  have hm2 := hm.2
  unfold buildGlobalEnvironment at hm2 ⊢
  rw [next_foldl_registerFun] at hm2
  rw [lookup_foldl_registerFun _ _ _ _ _ (fun i _ h2 => hm2 i h2)]
  have hrev : ((standardFunctions.map (fun f => (f.name, expandStandardFun f))).reverse.find?
      (fun e => name == e.1)) = none := by
    unfold lookupStandardFun at hs
    rw [List.find?_eq_none] at hs ⊢
    intro e he
    simp only [List.mem_reverse, List.mem_map] at he
    obtain ⟨f, hf, rfl⟩ := he
    exact hs f hf
  rw [hrev]
  simp only []
  rw [lookup_foldl_registerFun _ _ _ _ _ (fun i _ h2 => by
    have hlt : i < ((ext.builtinFunctions.map (fun f => (f.name, some f.expandFun))).foldl
        registerFun (Environment.null, Memory.empty)).2.next := by
      rw [next_foldl_registerFun]; exact h2
    rw [hm2 i (Nat.lt_add_right _ hlt), slots_foldl_registerFun _ _ _ hlt])]
  cases hfind : (ext.builtinFunctions.map (fun f => (f.name, some f.expandFun))).reverse.find?
      (fun e => name == e.1) with
  | none =>
    exfalso
    obtain ⟨f, hf, hname⟩ := hb.1
    rw [List.find?_eq_none] at hfind
    exact hfind (f.name, some f.expandFun)
      (by simp only [List.mem_reverse, List.mem_map]; exact ⟨f, hf, rfl⟩) (by simp [hname])
  | some e =>
    have hmem := List.mem_of_find?_eq_some hfind
    have hp := List.find?_some hfind
    simp only [List.mem_reverse, List.mem_map] at hmem
    obtain ⟨f, hf, rfl⟩ := hmem
    have hname : f.name = name := by
      have := hp
      simp at this
      exact this.symm
    simp only [hb.2 f hf hname]

theorem resolveFunction_builtin (ext : Externals) (name : String) (tree : TreeNode)
    (hb : BuiltinIs ext name tree) : resolveFunction ext name = some tree := by
  unfold resolveFunction lookupBuiltinFun
  cases hfind : ext.builtinFunctions.find? (fun f => name == f.name) with
  | none =>
    exfalso
    obtain ⟨f, hf, hname⟩ := hb.1
    rw [List.find?_eq_none] at hfind
    exact hfind f hf (by simp [hname])
  | some f =>
    have hmem := List.mem_of_find?_eq_some hfind
    have hp := List.find?_some hfind
    have hname : f.name = name := by
      have := hp
      simp at this
      exact this.symm
    simp only [hb.2 f hmem hname]

theorem errOut_globalEnvironment (ext : Externals) :
    (buildGlobalEnvironment ext Memory.empty).2.errOut = [] := by
  simp [buildGlobalEnvironment, errOut_foldl_registerFun, Memory.empty]

theorem primCalls_globalEnvironment (ext : Externals) :
    (buildGlobalEnvironment ext Memory.empty).2.primCalls = [] := by
  simp [buildGlobalEnvironment, primCalls_foldl_registerFun, Memory.empty]

@[simp] theorem isNull_frame (id : Nat) (name : String) (parent : Environment) :
    (Environment.frame id name parent).isNull = false := rfl
@[simp] theorem isNull_null : Environment.null.isNull = true := rfl

theorem Memory.intact_alloc_iff (m0 m : Memory) (c : Closure) (h : m0.next ≤ m.next) :
    Memory.Intact m0 (m.alloc c) ↔ Memory.Intact m0 m := by
  constructor
  · intro hi
    refine ⟨h, fun i hlt => ?_⟩
    have := hi.2 i hlt
    have hne : i ≠ m.next := Nat.ne_of_lt (Nat.lt_of_lt_of_le hlt h)
    simpa [hne] using this
  · intro hi
    exact hi.alloc c

theorem Memory.intact_setSlot_iff (m0 m : Memory) (id : Nat) (c : Closure) (h : m0.next ≤ id) :
    Memory.Intact m0 (m.setSlot id c) ↔ Memory.Intact m0 m := by
  constructor
  · intro hi
    refine ⟨hi.1, fun i hlt => ?_⟩
    have := hi.2 i hlt
    have hne : i ≠ id := Nat.ne_of_lt (Nat.lt_of_lt_of_le hlt h)
    simpa [hne] using this
  · intro hi
    exact hi.setSlot id c h

theorem expand_and : expandStandardFun ⟨"and", "(lambda p (lambda q p q p))"⟩
    = some (AbsK "p" (AbsK "q" (AppK (AppK (IdK "p") (IdK "q")) (IdK "p")))) := by decide

theorem expand_or : expandStandardFun ⟨"or", "(lambda p (lambda q p p q))"⟩
    = some (AbsK "p" (AbsK "q" (AppK (AppK (IdK "p") (IdK "p")) (IdK "q")))) := by decide


/-! ## Claims on the machine -/

/-- A lookup that returns a closure has found a frame that binds the name. -/
theorem binds_of_lookup (ev : State → Memory → Run (Option State)) (name : String)
    (env : Environment) (m : Memory) (c : Closure) (m1 : Memory)
    (h : lookupVariableWith ev name env m = Run.done (some c) m1) : env.binds name = true := by
  induction env with
  | null => simp [lookupVariableWith] at h
  | frame id fname parent ih =>
    by_cases hname : (name == fname) = true
    · simp [Environment.binds, hname]
    · simp only [lookupVariableWith, hname, Bool.false_eq_true, if_false] at h
      simp [Environment.binds, ih h]

@[simp] theorem binds_frame_self (id : Nat) (name : String) (parent : Environment) :
    (Environment.frame id name parent).binds name = true := by
  simp [Environment.binds]

/-- C6 (identity applied to a constant): for every parameter name `x` and every integer
constant `c`, `evaluate(App (Abs x (Id x)) (Const c))` returns `Const c` without any
diagnostic, for every fuel from 4 on. The identifier `x` is bound in the frame of the
argument, so the machine does not stop on it: the identifier rule looks it up, and the run
ends on the constant. -/
theorem C6_identity_applied_to_constant (ext : Externals) (x : String) (c : Int) (n : Nat) :
    (evaluate ext (n + 4) (AppK (AbsK x (IdK x)) (ConstK c))).value = some (some (ConstK c)) ∧
    (evaluate ext (n + 4) (AppK (AbsK x (IdK x)) (ConstK c))).diagnostics = [] := by
  have key : ∃ m, evaluate ext (n + 4) (AppK (AbsK x (IdK x)) (ConstK c))
      = Run.done (some (ConstK c)) m ∧ m.errOut = [] := by
    have hG := isNull_globalEnvironment ext Memory.empty
    have hm := errOut_globalEnvironment ext
    unfold evaluate
    generalize (buildGlobalEnvironment ext Memory.empty).1 = G at hG
    generalize (buildGlobalEnvironment ext Memory.empty).2 = m0 at hm
    simp [evaluate_loop_succ, resolveFreeVariables_succ, resolveLoop, cek_canTerminate,
      isValue, step, valueStep, lookupVariableWith, cek_newEnvironment, duplicateTree, hG,
      hm, FV, addVar, newVarSet, contains, vs_asList, substitute]
  obtain ⟨m, h, he⟩ := key
  rw [h]
  exact ⟨rfl, he⟩

/-- C7 (curried function returns its outer argument): for distinct names `x`, `y` that are
not registry names and integer constants `a`, `b`,
`evaluate(App (App (Abs x (Abs y (Id x))) (Const a)) (Const b))` returns `Const a` without
any diagnostic, for every fuel from 6 on: the control `Id x` is met under the frame of
`y`, and the identifier rule finds `x` in the parent frame. -/
theorem C7_curried_function_returns_outer_argument (ext : Externals) (x y : String)
    (a b : Int) (hxy : x ≠ y) (_hx : resolveFunction ext x = none)
    (_hy : resolveFunction ext y = none) (n : Nat) :
    (evaluate ext (n + 6) (AppK (AppK (AbsK x (AbsK y (IdK x))) (ConstK a)) (ConstK b))).value
      = some (some (ConstK a)) ∧
    (evaluate ext (n + 6)
      (AppK (AppK (AbsK x (AbsK y (IdK x))) (ConstK a)) (ConstK b))).diagnostics = [] := by
  have key : ∃ m, evaluate ext (n + 6)
      (AppK (AppK (AbsK x (AbsK y (IdK x))) (ConstK a)) (ConstK b))
      = Run.done (some (ConstK a)) m ∧ m.errOut = [] := by
    have hG := isNull_globalEnvironment ext Memory.empty
    have hm := errOut_globalEnvironment ext
    unfold evaluate
    generalize (buildGlobalEnvironment ext Memory.empty).1 = G at hG
    generalize (buildGlobalEnvironment ext Memory.empty).2 = m0 at hm
    simp [evaluate_loop_succ, resolveFreeVariables_succ, resolveLoop, cek_canTerminate,
      isValue, step, valueStep, lookupVariableWith, cek_newEnvironment, duplicateTree, hG,
      hm, FV, addVar, newVarSet, contains, vs_asList, substitute, hxy, Environment.binds,
      Nat.add_assoc]
  obtain ⟨m, h, he⟩ := key
  rw [h]
  exact ⟨rfl, he⟩

/-- Witness of C7: `((lambda x (lambda y x)) 1 2)` gives `1`. -/
theorem C7_curried_function_returns_outer_argument_witness :
    "x" ≠ "y" ∧ resolveFunction churchExternals "x" = none ∧
    resolveFunction churchExternals "y" = none ∧
    (evaluate churchExternals (0 + 6)
      (AppK (AppK (AbsK "x" (AbsK "y" (IdK "x"))) (ConstK 1)) (ConstK 2))).value
      = some (some (ConstK 1)) ∧
    (evaluate churchExternals (0 + 6)
      (AppK (AppK (AbsK "x" (AbsK "y" (IdK "x"))) (ConstK 1)) (ConstK 2))).diagnostics = [] :=
  ⟨by decide, by decide, by decide,
    C7_curried_function_returns_outer_argument churchExternals "x" "y" 1 2 (by decide)
      (by decide) (by decide) 0⟩

/-- C8 (a primitive on two constants fires exactly once): when `evalPrimitive` produces
the constant `r` for the node `Prim op (Const a) (Const b)`,
`evaluate(Prim op (Const a) (Const b))` returns `Const r` without any diagnostic, for every
fuel from 4 on, and `evalPrimitive` is called exactly once, on that node with the operands
in their original order. -/
theorem C8_primitive_on_constants_fires_once (ext : Externals) (op : String) (a b r : Int)
    (h : ext.evalPrimitive (PrimiK op (ConstK a) (ConstK b)) = ConstK r) (n : Nat) :
    (evaluate ext (n + 4) (PrimiK op (ConstK a) (ConstK b))).value = some (some (ConstK r)) ∧
    (evaluate ext (n + 4) (PrimiK op (ConstK a) (ConstK b))).diagnostics = [] ∧
    (evaluate ext (n + 4) (PrimiK op (ConstK a) (ConstK b))).primitiveCalls
      = [PrimiK op (ConstK a) (ConstK b)] := by
  have key : ∃ m, evaluate ext (n + 4) (PrimiK op (ConstK a) (ConstK b))
      = Run.done (some (ConstK r)) m ∧ m.errOut = [] ∧
        m.primCalls = [PrimiK op (ConstK a) (ConstK b)] := by
    have hG := isNull_globalEnvironment ext Memory.empty
    have hm := errOut_globalEnvironment ext
    have hp := primCalls_globalEnvironment ext
    unfold evaluate
    generalize (buildGlobalEnvironment ext Memory.empty).1 = G at hG
    generalize (buildGlobalEnvironment ext Memory.empty).2 = m0 at hm hp
    simp [evaluate_loop_succ, resolveFreeVariables_succ, resolveLoop, cek_canTerminate,
      isValue, step, valueStep, lookupVariableWith, cek_newEnvironment, duplicateTree, hG, hm,
      hp, FV, addVar, newVarSet, contains, vs_asList, substitute, h, TreeNode.kind]
  obtain ⟨m, h1, he, hc⟩ := key
  rw [h1]
  exact ⟨rfl, he, hc⟩

/-- Witness of C8: with `+` integer addition, `(+ 2 3)` gives `5`. -/
theorem C8_primitive_on_constants_fires_once_witness :
    churchExternals.evalPrimitive (PrimiK "+" (ConstK 2) (ConstK 3)) = ConstK 5 ∧
    (evaluate churchExternals (0 + 4) (PrimiK "+" (ConstK 2) (ConstK 3))).value
      = some (some (ConstK 5)) ∧
    (evaluate churchExternals (0 + 4) (PrimiK "+" (ConstK 2) (ConstK 3))).diagnostics = [] ∧
    (evaluate churchExternals (0 + 4) (PrimiK "+" (ConstK 2) (ConstK 3))).primitiveCalls
      = [PrimiK "+" (ConstK 2) (ConstK 3)] :=
  ⟨by decide, C8_primitive_on_constants_fires_once churchExternals "+" 2 3 5 (by decide) 0⟩

theorem iterations_zero (ext : Externals) (fuel : Nat) (state : State) (m : Memory) :
    iterations ext fuel 0 state m = some (state, m) := by
  cases fuel <;> rfl

theorem iterations_succ (ext : Externals) (fuel k : Nat) (state : State) (m : Memory) :
    iterations ext (fuel + 1) (k + 1) state m =
      if cek_canTerminate state then none
      else
        match state.closure.expr with
        | none => none
        | some expr =>
          match step ext (_evaluate ext fuel) state expr m with
          | Step.next state1 m1 => iterations ext fuel k state1 m1
          | _ => none := rfl

/-- C9 (a function applied twice through higher-order arguments): with `+` integer
addition, `((lambda f (lambda x f (f x))) (lambda n (+ n 1)) k)` evaluates to `k + 2`
without any diagnostic, for every fuel from 17 on, and the primitive fires first on `k`
and `1`, then on `k + 1` and `1`. The argument `(f x)` is bound unevaluated: after eight
iterations of the loop the control is the left operand `Id n` of the primitive, under the
`Opd` frame of the primitive, the frame of `n` holds the closure of `(f x)` as it was
written, and no primitive has fired. The memoising lookup of `n` made by the next
iteration evaluates that closure: it returns the constant `k + 1`, the primitive has
fired on `k` and `1` inside it, and the frame of `n` holds the constant afterwards. -/
theorem C9_function_applied_twice (ext : Externals) (k : Int)
    (hplus : ∀ a b, ext.evalPrimitive (PrimiK "+" (ConstK a) (ConstK b)) = ConstK (a + b))
    (n : Nat) :
    (evaluate ext (n + 17)
      (AppK (AppK (AbsK "f" (AbsK "x" (AppK (IdK "f") (AppK (IdK "f") (IdK "x")))))
        (AbsK "n" (PrimiK "+" (IdK "n") (ConstK 1)))) (ConstK k))).value
      = some (some (ConstK (k + 2))) ∧
    (evaluate ext (n + 17)
      (AppK (AppK (AbsK "f" (AbsK "x" (AppK (IdK "f") (AppK (IdK "f") (IdK "x")))))
        (AbsK "n" (PrimiK "+" (IdK "n") (ConstK 1)))) (ConstK k))).diagnostics = [] ∧
    (evaluate ext (n + 17)
      (AppK (AppK (AbsK "f" (AbsK "x" (AppK (IdK "f") (AppK (IdK "f") (IdK "x")))))
        (AbsK "n" (PrimiK "+" (IdK "n") (ConstK 1)))) (ConstK k))).primitiveCalls
      = [PrimiK "+" (ConstK k) (ConstK 1), PrimiK "+" (ConstK (k + 1)) (ConstK 1)] ∧
    (∃ (envn envx : Environment) (idn : Nat) (m8 : Memory),
      iterations ext (n + 17) 8
          ⟨⟨some (AppK (AppK (AbsK "f" (AbsK "x" (AppK (IdK "f") (AppK (IdK "f") (IdK "x")))))
            (AbsK "n" (PrimiK "+" (IdK "n") (ConstK 1)))) (ConstK k)),
            (buildGlobalEnvironment ext Memory.empty).1⟩, []⟩
          (buildGlobalEnvironment ext Memory.empty).2
        = some (⟨⟨some (IdK "n"), envn⟩,
            [⟨ContinuationTag.OpdKK, ⟨some (PrimiK "+" (IdK "n") (ConstK 1)), envn⟩⟩]⟩, m8) ∧
      envn.find "n" = some idn ∧
      m8.slots idn = some ⟨some (AppK (IdK "f") (IdK "x")), envx⟩ ∧
      envx.isNull = false ∧
      m8.primCalls = [] ∧
      (lookupVariable ext (n + 8) "n" envn m8).value
        = some (some ⟨some (ConstK (k + 1)), Environment.null⟩) ∧
      (lookupVariable ext (n + 8) "n" envn m8).primitiveCalls
        = [PrimiK "+" (ConstK k) (ConstK 1)] ∧
      (lookupVariable ext (n + 8) "n" envn m8).slot idn
        = some ⟨some (ConstK (k + 1)), Environment.null⟩) := by
  have hG := isNull_globalEnvironment ext Memory.empty
  have hm := errOut_globalEnvironment ext
  have hp := primCalls_globalEnvironment ext
  have key : ∃ m, evaluate ext (n + 17)
      (AppK (AppK (AbsK "f" (AbsK "x" (AppK (IdK "f") (AppK (IdK "f") (IdK "x")))))
        (AbsK "n" (PrimiK "+" (IdK "n") (ConstK 1)))) (ConstK k))
      = Run.done (some (ConstK (k + 1 + 1))) m ∧ m.errOut = [] ∧
        m.primCalls = [PrimiK "+" (ConstK k) (ConstK 1), PrimiK "+" (ConstK (k + 1)) (ConstK 1)] := by
    unfold evaluate
    generalize (buildGlobalEnvironment ext Memory.empty).1 = G at hG
    generalize (buildGlobalEnvironment ext Memory.empty).2 = m0 at hm hp
    simp [evaluate_loop_succ, resolveFreeVariables_succ, resolveLoop, cek_canTerminate,
      isValue, step, valueStep, lookupVariableWith, cek_newEnvironment, duplicateTree, hG, hm,
      hp, FV, addVar, newVarSet, contains, vs_asList, substitute, hplus, TreeNode.kind,
      Nat.add_assoc, Environment.binds]
  obtain ⟨m, h1, he, hc⟩ := key
  have hk : k + 1 + 1 = k + 2 := by omega
  rw [h1, hk]
  refine ⟨rfl, he, hc, ?_⟩
  generalize (buildGlobalEnvironment ext Memory.empty).1 = G at hG
  generalize (buildGlobalEnvironment ext Memory.empty).2 = m0 at hm hp
  refine ⟨Environment.frame (m0.next + 3) "n" (Environment.frame (m0.next + 2) "" G),
    Environment.frame (m0.next + 1) "x" (Environment.frame m0.next "f" G), m0.next + 3, ?_⟩
  simp [iterations_succ, iterations_zero, lookupVariable, evaluate_loop_succ,
    cek_canTerminate, isValue, step, valueStep, lookupVariableWith, cek_newEnvironment,
    duplicateTree, hG, hp, hplus, TreeNode.kind, Nat.add_assoc, Environment.binds,
    Environment.find, Run.value, Run.primitiveCalls, Run.slot]

/-- Witness of C9 at `k = 0`: the result is `2`. -/
theorem C9_function_applied_twice_witness :
    (∀ a b, churchExternals.evalPrimitive (PrimiK "+" (ConstK a) (ConstK b)) = ConstK (a + b)) ∧
    (evaluate churchExternals (0 + 17)
      (AppK (AppK (AbsK "f" (AbsK "x" (AppK (IdK "f") (AppK (IdK "f") (IdK "x")))))
        (AbsK "n" (PrimiK "+" (IdK "n") (ConstK 1)))) (ConstK 0))).value
      = some (some (ConstK (0 + 2))) :=
  ⟨fun _ _ => rfl,
    (C9_function_applied_twice churchExternals 0 (fun _ _ => rfl) 0).1⟩

/-- The global environment binds every name of the built-in registry. -/
theorem binds_global_builtin (ext : Externals) (name : String) (tree : TreeNode)
    (hs : lookupStandardFun name = none) (hb : BuiltinIs ext name tree) :
    (buildGlobalEnvironment ext Memory.empty).1.binds name = true :=
  binds_of_lookup (fun _ _ => Run.crash) name _ _ _ _
    (lookup_global_builtin ext (fun _ _ => Run.crash) name tree hs hb _ (Memory.Intact.refl _))

/-- C10 (Church-boolean and/or): with `true` and `false` supplied by the built-in registry
as `(lambda x (lambda y x))` and `(lambda x (lambda y y))` and `and`/`or` as in the
standard registry, for all booleans `b1`, `b2` the evaluation of `(and b1 b2)` returns the
Church encoding of `b1 ∧ b2` and that of `(or b1 b2)` the Church encoding of `b1 ∨ b2`,
as the lambda abstraction the registry holds, without any diagnostic and for every fuel
from 14 on. -/
theorem C10_and_or_return_church_encoding (ext : Externals)
    (hT : BuiltinIs ext "true" (AbsK "x" (AbsK "y" (IdK "x"))))
    (hF : BuiltinIs ext "false" (AbsK "x" (AbsK "y" (IdK "y"))))
    (b1 b2 : Bool) (n : Nat) :
    ((evaluate ext (n + 14)
        (AppK (AppK (IdK "and") (IdK (boolName b1))) (IdK (boolName b2)))).value
      = some (some (churchBool (b1 && b2))) ∧
     (evaluate ext (n + 14)
        (AppK (AppK (IdK "and") (IdK (boolName b1))) (IdK (boolName b2)))).diagnostics = []) ∧
    ((evaluate ext (n + 14)
        (AppK (AppK (IdK "or") (IdK (boolName b1))) (IdK (boolName b2)))).value
      = some (some (churchBool (b1 || b2))) ∧
     (evaluate ext (n + 14)
        (AppK (AppK (IdK "or") (IdK (boolName b1))) (IdK (boolName b2)))).diagnostics = []) := by
  have hG := isNull_globalEnvironment ext Memory.empty
  have hm := errOut_globalEnvironment ext
  have hand := fun ev m => lookup_global_standard ext ev "and"
    ⟨"and", "(lambda p (lambda q p q p))"⟩ (by decide) m
  have hor := fun ev m => lookup_global_standard ext ev "or"
    ⟨"or", "(lambda p (lambda q p p q))"⟩ (by decide) m
  have htrue := fun ev m => lookup_global_builtin ext ev "true" _ (by decide) hT m
  have hfalse := fun ev m => lookup_global_builtin ext ev "false" _ (by decide) hF m
  have hbT := binds_global_builtin ext "true" _ (by decide) hT
  have hbF := binds_global_builtin ext "false" _ (by decide) hF
  rw [expand_and] at hand
  rw [expand_or] at hor
  have keyAnd : ∃ m, evaluate ext (n + 14)
      (AppK (AppK (IdK "and") (IdK (boolName b1))) (IdK (boolName b2)))
      = Run.done (some (churchBool (b1 && b2))) m ∧ m.errOut = [] := by
    unfold evaluate
    generalize (buildGlobalEnvironment ext Memory.empty).1 = G at *
    generalize (buildGlobalEnvironment ext Memory.empty).2 = m0 at *
    cases b1 <;> cases b2 <;>
    simp [evaluate_loop_succ, resolveFreeVariables_succ, resolveLoop, cek_canTerminate,
      isValue, step, valueStep, lookupVariableWith, cek_newEnvironment, duplicateTree, hG, hm,
      FV, addVar, newVarSet, contains, vs_asList, deleteVar, TreeNode.kind, Nat.add_assoc,
      boolName, churchBool, hand, htrue, hfalse, hbT, hbF, Environment.binds,
      Memory.Intact.refl, Memory.intact_alloc_iff, Memory.intact_setSlot_iff]
  have keyOr : ∃ m, evaluate ext (n + 14)
      (AppK (AppK (IdK "or") (IdK (boolName b1))) (IdK (boolName b2)))
      = Run.done (some (churchBool (b1 || b2))) m ∧ m.errOut = [] := by
    unfold evaluate
    generalize (buildGlobalEnvironment ext Memory.empty).1 = G at *
    generalize (buildGlobalEnvironment ext Memory.empty).2 = m0 at *
    cases b1 <;> cases b2 <;>
    simp [evaluate_loop_succ, resolveFreeVariables_succ, resolveLoop, cek_canTerminate,
      isValue, step, valueStep, lookupVariableWith, cek_newEnvironment, duplicateTree, hG, hm,
      FV, addVar, newVarSet, contains, vs_asList, deleteVar, TreeNode.kind, Nat.add_assoc,
      boolName, churchBool, hor, htrue, hfalse, hbT, hbF, Environment.binds,
      Memory.Intact.refl, Memory.intact_alloc_iff, Memory.intact_setSlot_iff]
  obtain ⟨m1, h1, e1⟩ := keyAnd
  obtain ⟨m2, h2, e2⟩ := keyOr
  rw [h1, h2]
  exact ⟨⟨rfl, e1⟩, ⟨rfl, e2⟩⟩

/-- Witness of C10: `(and true false)` gives `(lambda x (lambda y y))`. -/
theorem C10_and_or_return_church_encoding_witness :
    BuiltinIs churchExternals "true" (AbsK "x" (AbsK "y" (IdK "x"))) ∧
    BuiltinIs churchExternals "false" (AbsK "x" (AbsK "y" (IdK "y"))) ∧
    (evaluate churchExternals (0 + 14)
      (AppK (AppK (IdK "and") (IdK (boolName true))) (IdK (boolName false)))).value
      = some (some (churchBool (true && false))) ∧
    churchBool (true && false) = AbsK "x" (AbsK "y" (IdK "y")) :=
  ⟨by simp [BuiltinIs, churchExternals], by simp [BuiltinIs, churchExternals],
    (C10_and_or_return_church_encoding churchExternals (by simp [BuiltinIs, churchExternals])
      (by simp [BuiltinIs, churchExternals]) true false 0).1.1, by decide⟩

/-! ## Identifiers outside the registries -/

theorem expandStandardFun_isSome (f : StandardFun) (hf : f ∈ standardFunctions) :
    (expandStandardFun f).isSome = true := by
  simp only [standardFunctions, List.mem_cons, List.mem_singleton, List.not_mem_nil,
    or_false] at hf
  rcases hf with rfl | rfl | rfl | rfl <;> decide

theorem lookupStandardFun_of_resolveFunction_none (ext : Externals) (name : String)
    (h : resolveFunction ext name = none) : lookupStandardFun name = none := by
  unfold resolveFunction at h
  cases hb : lookupBuiltinFun ext name with
  | some f => simp [hb] at h
  | none =>
    cases hs : lookupStandardFun name with
    | none => rfl
    | some f =>
      exfalso
      have hmem : f ∈ standardFunctions := List.mem_of_find?_eq_some hs
      have ht := expandStandardFun_isSome f hmem
      simp only [hb, hs] at h
      rw [h] at ht
      exact absurd ht (by decide)

theorem lookupBuiltinFun_of_resolveFunction_none (ext : Externals) (name : String)
    (h : resolveFunction ext name = none) : lookupBuiltinFun ext name = none := by
  unfold resolveFunction at h
  cases hb : lookupBuiltinFun ext name with
  | some f => simp [hb] at h
  | none => rfl

/-- A lookup in the global environment of a name that is in neither registry finds
nothing, in a store that left the global frames alone. -/
theorem lookup_global_unbound (ext : Externals) (ev : State → Memory → Run (Option State))
    (name : String) (h : resolveFunction ext name = none) (m : Memory)
    (hm : Memory.Intact (buildGlobalEnvironment ext Memory.empty).2 m) :
    lookupVariableWith ev name (buildGlobalEnvironment ext Memory.empty).1 m
      = Run.done none m := by
  have hs := lookupStandardFun_of_resolveFunction_none ext name h
  have hb := lookupBuiltinFun_of_resolveFunction_none ext name h
  have hm2 := hm.2
  unfold buildGlobalEnvironment at hm2 ⊢
  rw [next_foldl_registerFun] at hm2
  rw [lookup_foldl_registerFun _ _ _ _ _ (fun i _ h2 => hm2 i h2)]
  have hrev : ((standardFunctions.map (fun f => (f.name, expandStandardFun f))).reverse.find?
      (fun e => name == e.1)) = none := by
    unfold lookupStandardFun at hs
    rw [List.find?_eq_none] at hs ⊢
    intro e he
    simp only [List.mem_reverse, List.mem_map] at he
    obtain ⟨f, hf, rfl⟩ := he
    exact hs f hf
  rw [hrev]
  simp only []
  rw [lookup_foldl_registerFun _ _ _ _ _ (fun i _ h2 => by
    have hlt : i < ((ext.builtinFunctions.map (fun f => (f.name, some f.expandFun))).foldl
        registerFun (Environment.null, Memory.empty)).2.next := by
      rw [next_foldl_registerFun]; exact h2
    rw [hm2 i (Nat.lt_add_right _ hlt), slots_foldl_registerFun _ _ _ hlt])]
  have hrev2 : ((ext.builtinFunctions.map (fun f => (f.name, some f.expandFun))).reverse.find?
      (fun e => name == e.1)) = none := by
    unfold lookupBuiltinFun at hb
    rw [List.find?_eq_none] at hb ⊢
    intro e he
    simp only [List.mem_reverse, List.mem_map] at he
    obtain ⟨f, hf, rfl⟩ := he
    exact hb f hf
  rw [hrev2]
  rfl

/-- C12 (undefined identifier in operator position): for every name `n` that is in
neither registry (the global environment binds no other name) and every argument `a`,
`evaluate(App (Id n) a)` returns no result, for every fuel from 2 on, and the only
diagnostic is `Error: n is not a defined variable or function.` -/
theorem C12_undefined_operator_fails (ext : Externals) (n : String) (a : TreeNode)
    (hn : resolveFunction ext n = none) (k : Nat) :
    (evaluate ext (k + 2) (AppK (IdK n) a)).value = some none ∧
    (evaluate ext (k + 2) (AppK (IdK n) a)).diagnostics
      = ["Error: " ++ n ++ " is not a defined variable or function.\n"] := by
  have hm := errOut_globalEnvironment ext
  have hlook := fun ev m => lookup_global_unbound ext ev n hn m
  have key : ∃ m, evaluate ext (k + 2) (AppK (IdK n) a) = Run.done none m ∧
      m.errOut = ["Error: " ++ n ++ " is not a defined variable or function.\n"] := by
    unfold evaluate
    generalize (buildGlobalEnvironment ext Memory.empty).1 = G at *
    generalize (buildGlobalEnvironment ext Memory.empty).2 = m0 at *
    simp [evaluate_loop_succ, cek_canTerminate, isValue, step, hlook, hn, hm,
      Memory.Intact.refl, Memory.printErr]
  obtain ⟨m, h, he⟩ := key
  rw [h]
  exact ⟨rfl, he⟩

/-- Witness of C12: `(foo 1)` gives no result and the diagnostic on `foo`. -/
theorem C12_undefined_operator_fails_witness :
    resolveFunction churchExternals "foo" = none ∧
    (evaluate churchExternals (0 + 2) (AppK (IdK "foo") (ConstK 1))).value = some none ∧
    (evaluate churchExternals (0 + 2) (AppK (IdK "foo") (ConstK 1))).diagnostics
      = ["Error: " ++ "foo" ++ " is not a defined variable or function.\n"] :=
  ⟨by decide, C12_undefined_operator_fails churchExternals "foo" (ConstK 1) (by decide) 0⟩

/-- A run that is in the state `s1` after `k` iterations goes on as the run from `s1` with
the fuel that is left. -/
theorem evaluate_of_iterations (ext : Externals) (k : Nat) : ∀ (fuel : Nat) (s : State)
    (m : Memory) (s1 : State) (m1 : Memory),
    iterations ext fuel k s m = some (s1, m1) →
    _evaluate ext fuel s m = _evaluate ext (fuel - k) s1 m1 := by
  induction k with
  | zero =>
    intro fuel s m s1 m1 h
    simp only [iterations, Option.some.injEq, Prod.mk.injEq] at h
    rw [h.1, h.2]
    rfl
  | succ k ih =>
    intro fuel s m s1 m1 h
    cases fuel with
    | zero => simp [iterations] at h
    | succ fuel =>
      rw [evaluate_loop_succ]
      simp only [iterations] at h
      by_cases hc : cek_canTerminate s = true
      · simp [hc] at h
      · have hc2 : cek_canTerminate s = false := by simpa using hc
        simp only [hc2, Bool.false_eq_true, if_false] at h ⊢
        cases he : s.closure.expr with
        | none => simp [he] at h
        | some expr =>
          simp only [he] at h ⊢
          cases hs : step ext (_evaluate ext fuel) s expr m with
          | next s2 m2 =>
            simp only [hs] at h ⊢
            rw [ih fuel s2 m2 s1 m1 h, Nat.succ_sub_succ]
          | return0 m2 => simp [hs] at h
          | crash => simp [hs] at h
          | timeout => simp [hs] at h

/-- Transition T5: a constant in operator position. -/
theorem evaluate_constant_applied (ext : Externals) (fuel : Nat) (c : Int)
    (env : Environment) (cl : Closure) (rest : List Continuation) (m : Memory) :
    _evaluate ext (fuel + 1) ⟨⟨some (ConstK c), env⟩, ⟨ContinuationTag.ArgKK, cl⟩ :: rest⟩ m
      = Run.done none
          ((((m.printErr "Error: cannot apply a constant to any argument.\n").printErr
            "Expression:\t").printOut (printExpression (ConstK c))).printErr "\n") := by
  simp [evaluate_loop_succ, cek_canTerminate, isValue, step, valueStep]


/-- Every run of `_evaluate` that reaches a state whose control expression is a `Const` and
whose top continuation frame is `Arg` returns failure; when that run is the one `evaluate`
starts, `evaluate` returns no result, with the three diagnostic pieces of the transition;
in particular `evaluate(App (Const c) a)` returns no result for every fuel from 2 on,
whatever `a` is, and `a` is never evaluated (no primitive fires, the diagnostics are those
of the transition alone). -/
theorem constant_applied_fails (ext : Externals) :
    (∀ (fuel k : Nat) (s : State) (m : Memory) (c : Int) (env : Environment) (cl : Closure)
        (rest : List Continuation) (m1 : Memory),
      iterations ext (fuel + 1 + k) k s m
        = some (⟨⟨some (ConstK c), env⟩, ⟨ContinuationTag.ArgKK, cl⟩ :: rest⟩, m1) →
      (_evaluate ext (fuel + 1 + k) s m).value = some none) ∧
    (∀ (fuel k : Nat) (e : TreeNode) (c : Int) (env : Environment) (cl : Closure)
        (rest : List Continuation) (m1 : Memory),
      iterations ext (fuel + 1 + k) k
          ⟨⟨some e, (buildGlobalEnvironment ext Memory.empty).1⟩, []⟩
          (buildGlobalEnvironment ext Memory.empty).2
        = some (⟨⟨some (ConstK c), env⟩, ⟨ContinuationTag.ArgKK, cl⟩ :: rest⟩, m1) →
      (evaluate ext (fuel + 1 + k) e).value = some none ∧
      (evaluate ext (fuel + 1 + k) e).diagnostics = m1.errOut ++
        ["Error: cannot apply a constant to any argument.\n", "Expression:\t", "\n"]) ∧
    (∀ (c : Int) (a : TreeNode) (n : Nat),
      (evaluate ext (n + 2) (AppK (ConstK c) a)).value = some none ∧
      (evaluate ext (n + 2) (AppK (ConstK c) a)).diagnostics
        = ["Error: cannot apply a constant to any argument.\n", "Expression:\t", "\n"] ∧
      (evaluate ext (n + 2) (AppK (ConstK c) a)).primitiveCalls = []) := by
  refine ⟨?_, ?_, ?_⟩
  · intro fuel k s m c env cl rest m1 h
    rw [evaluate_of_iterations ext k _ s m _ m1 h, Nat.add_sub_cancel,
      evaluate_constant_applied]
    rfl
  · intro fuel k e c env cl rest m1 h
    unfold evaluate
    rw [evaluate_of_iterations ext k _ _ _ _ m1 h, Nat.add_sub_cancel,
      evaluate_constant_applied]
    simp [Run.value, Run.diagnostics, Memory.printErr, Memory.printOut]
  · intro c a n
    have hm := errOut_globalEnvironment ext
    have hp := primCalls_globalEnvironment ext
    have key : ∃ m, evaluate ext (n + 2) (AppK (ConstK c) a) = Run.done none m ∧
        m.errOut = ["Error: cannot apply a constant to any argument.\n", "Expression:\t", "\n"]
        ∧ m.primCalls = [] := by
      unfold evaluate
      generalize (buildGlobalEnvironment ext Memory.empty).1 = G at *
      generalize (buildGlobalEnvironment ext Memory.empty).2 = m0 at *
      simp [evaluate_loop_succ, cek_canTerminate, isValue, step, valueStep, hm, hp,
        Memory.printErr, Memory.printOut]
    obtain ⟨m, h, he, hc⟩ := key
    rw [h]
    exact ⟨rfl, he, hc⟩

/-- C13, evaluated on the code: in `((lambda x (lambda y x)) (1 2))` the final resolution
looks `x` up, the memoising lookup runs the machine on the argument `(1 2)`, that run
reaches the constant `1` under an `Arg` frame, writes the diagnostic and returns failure,
but `lookupVariable` only tests the return value to memoise and returns the closure of
the frame all the same: `evaluate` returns the tree `(lambda y 1 2)` after the diagnostic
of the failure. When the run that reaches such a state is the one `evaluate` starts, as
for `(c a)` with a constant `c` and any `a`, `evaluate` returns no result, `a` is not
evaluated and no primitive fires. -/
theorem C13_nested_failure_is_dropped :
    (evaluate churchExternals 3
      (AppK (AbsK "x" (AbsK "y" (IdK "x"))) (AppK (ConstK 1) (ConstK 2)))).value
      = some (some (AbsK "y" (AppK (ConstK 1) (ConstK 2)))) ∧
    (evaluate churchExternals 3
      (AppK (AbsK "x" (AbsK "y" (IdK "x"))) (AppK (ConstK 1) (ConstK 2)))).diagnostics
      = ["Error: cannot apply a constant to any argument.\n", "Expression:\t", "\n"] ∧
    (∀ (ext : Externals) (c : Int) (a : TreeNode) (n : Nat),
      (evaluate ext (n + 2) (AppK (ConstK c) a)).value = some none ∧
      (evaluate ext (n + 2) (AppK (ConstK c) a)).diagnostics
        = ["Error: cannot apply a constant to any argument.\n", "Expression:\t", "\n"] ∧
      (evaluate ext (n + 2) (AppK (ConstK c) a)).primitiveCalls = []) :=
  ⟨by decide, by decide, fun ext c a n => (constant_applied_fails ext).2.2 c a n⟩

@[simp] theorem Memory.next_printErr (m : Memory) (s : String) :
    (m.printErr s).next = m.next := rfl
@[simp] theorem Memory.slots_printErr (m : Memory) (s : String) (i : Nat) :
    (m.printErr s).slots i = m.slots i := rfl
@[simp] theorem Memory.errOut_printErr (m : Memory) (s : String) :
    (m.printErr s).errOut = m.errOut ++ [s] := rfl
@[simp] theorem Memory.primCalls_printErr (m : Memory) (s : String) :
    (m.printErr s).primCalls = m.primCalls := rfl
@[simp] theorem Memory.next_printOut (m : Memory) (s : List String) :
    (m.printOut s).next = m.next := rfl
@[simp] theorem Memory.slots_printOut (m : Memory) (s : List String) (i : Nat) :
    (m.printOut s).slots i = m.slots i := rfl
@[simp] theorem Memory.errOut_printOut (m : Memory) (s : List String) :
    (m.printOut s).errOut = m.errOut := rfl
@[simp] theorem Memory.primCalls_printOut (m : Memory) (s : List String) :
    (m.printOut s).primCalls = m.primCalls := rfl

theorem Memory.intact_printErr_iff (m0 m : Memory) (s : String) :
    Memory.Intact m0 (m.printErr s) ↔ Memory.Intact m0 m := Iff.rfl

theorem Memory.intact_printOut_iff (m0 m : Memory) (s : List String) :
    Memory.Intact m0 (m.printOut s) ↔ Memory.Intact m0 m := Iff.rfl

theorem Memory.intact_recordPrimitive_iff (m0 m : Memory) (t : TreeNode) :
    Memory.Intact m0 (m.recordPrimitive t) ↔ Memory.Intact m0 m := Iff.rfl

/-- C14, evaluated on the code: a primitive whose left operand is an application (or a
primitive) dereferences a null pointer, whatever the registries, the operator and the
operands. In the `PrimiK` branch the statement `state->closure->expr->children[0] = NULL`
clears the first child of the left operand instead of detaching the left operand from the
stored node. So for `(+ ((lambda z (lambda x x)) 0) 1)`, whose left operand evaluates to
the abstraction `(lambda x x)`, `evaluate` does not fail with the diagnostic of the
primitive. When the operands are themselves an abstraction and a constant, in either
order, or two abstractions, `evaluate` returns no result with that diagnostic and
`evalPrimitive` is not called. -/
theorem C14_compound_left_operand_dereferences_null :
    (∀ (ext : Externals) (op : String) (f a r : TreeNode) (n : Nat),
      evaluate ext (n + 1) (PrimiK op (AppK f a) r) = Run.crash) ∧
    (∀ (ext : Externals) (op op2 : String) (l2 r2 r : TreeNode) (n : Nat),
      evaluate ext (n + 1) (PrimiK op (PrimiK op2 l2 r2) r) = Run.crash) ∧
    (evaluate churchExternals 3 (AppK (AbsK "z" (AbsK "x" (IdK "x"))) (ConstK 0))).value
      = some (some (AbsK "x" (IdK "x"))) ∧
    (∀ (ext : Externals) (op x : String) (b : TreeNode) (c : Int) (n : Nat),
      (evaluate ext (n + 3) (PrimiK op (AbsK x b) (ConstK c))).value = some none ∧
      (evaluate ext (n + 3) (PrimiK op (AbsK x b) (ConstK c))).diagnostics
        = ["Error: " ++ op ++ " can only be applied on constants.\n"] ∧
      (evaluate ext (n + 3) (PrimiK op (AbsK x b) (ConstK c))).primitiveCalls = []) ∧
    (∀ (ext : Externals) (op x : String) (b : TreeNode) (c : Int) (n : Nat),
      (evaluate ext (n + 3) (PrimiK op (ConstK c) (AbsK x b))).value = some none ∧
      (evaluate ext (n + 3) (PrimiK op (ConstK c) (AbsK x b))).diagnostics
        = ["Error: " ++ op ++ " can only be applied on constants.\n"] ∧
      (evaluate ext (n + 3) (PrimiK op (ConstK c) (AbsK x b))).primitiveCalls = []) ∧
    (∀ (ext : Externals) (op x y : String) (b d : TreeNode) (n : Nat),
      (evaluate ext (n + 3) (PrimiK op (AbsK x b) (AbsK y d))).value = some none ∧
      (evaluate ext (n + 3) (PrimiK op (AbsK x b) (AbsK y d))).diagnostics
        = ["Error: " ++ op ++ " can only be applied on constants.\n"] ∧
      (evaluate ext (n + 3) (PrimiK op (AbsK x b) (AbsK y d))).primitiveCalls = []) := by
  refine ⟨?_, ?_, by decide, ?_, ?_, ?_⟩
  · intro ext op f a r n
    simp [evaluate, evaluate_loop_succ, cek_canTerminate, isValue, step]
  · intro ext op op2 l2 r2 r n
    simp [evaluate, evaluate_loop_succ, cek_canTerminate, isValue, step]
  · intro ext op x b c n
    have hm := errOut_globalEnvironment ext
    have hp := primCalls_globalEnvironment ext
    have key : ∃ m, evaluate ext (n + 3) (PrimiK op (AbsK x b) (ConstK c)) = Run.done none m ∧
        m.errOut = ["Error: " ++ op ++ " can only be applied on constants.\n"] ∧
        m.primCalls = [] := by
      unfold evaluate
      generalize (buildGlobalEnvironment ext Memory.empty).1 = G at *
      generalize (buildGlobalEnvironment ext Memory.empty).2 = m0 at *
      simp [evaluate_loop_succ, cek_canTerminate, isValue, step, valueStep, hm, hp,
        Memory.printErr, TreeNode.kind]
    obtain ⟨m, h, he, hc⟩ := key
    rw [h]
    exact ⟨rfl, he, hc⟩
  · intro ext op x b c n
    have hm := errOut_globalEnvironment ext
    have hp := primCalls_globalEnvironment ext
    have key : ∃ m, evaluate ext (n + 3) (PrimiK op (ConstK c) (AbsK x b)) = Run.done none m ∧
        m.errOut = ["Error: " ++ op ++ " can only be applied on constants.\n"] ∧
        m.primCalls = [] := by
      unfold evaluate
      generalize (buildGlobalEnvironment ext Memory.empty).1 = G at *
      generalize (buildGlobalEnvironment ext Memory.empty).2 = m0 at *
      simp [evaluate_loop_succ, cek_canTerminate, isValue, step, valueStep, hm, hp,
        Memory.printErr, TreeNode.kind]
    obtain ⟨m, h, he, hc⟩ := key
    rw [h]
    exact ⟨rfl, he, hc⟩
  · intro ext op x y b d n
    have hm := errOut_globalEnvironment ext
    have hp := primCalls_globalEnvironment ext
    have key : ∃ m, evaluate ext (n + 3) (PrimiK op (AbsK x b) (AbsK y d)) = Run.done none m ∧
        m.errOut = ["Error: " ++ op ++ " can only be applied on constants.\n"] ∧
        m.primCalls = [] := by
      unfold evaluate
      generalize (buildGlobalEnvironment ext Memory.empty).1 = G at *
      generalize (buildGlobalEnvironment ext Memory.empty).2 = m0 at *
      simp [evaluate_loop_succ, cek_canTerminate, isValue, step, valueStep, hm, hp,
        Memory.printErr, TreeNode.kind]
    obtain ⟨m, h, he, hc⟩ := key
    rw [h]
    exact ⟨rfl, he, hc⟩

/-- C15 as stated fails: the evaluation of the argument `(foo 1)` fails, yet
`((lambda x 1) (foo 1))` returns `1` and writes no diagnostic, because the argument is
bound unevaluated and the parameter is never looked up. -/
theorem C15_counterexample_unused_failing_argument :
    (evaluate churchExternals 2 (AppK (IdK "foo") (ConstK 1))).value = some none ∧
    (evaluate churchExternals 3
      (AppK (AbsK "x" (ConstK 1)) (AppK (IdK "foo") (ConstK 1)))).value
      = some (some (ConstK 1)) ∧
    (evaluate churchExternals 3
      (AppK (AbsK "x" (ConstK 1)) (AppK (IdK "foo") (ConstK 1)))).diagnostics = [] := by
  decide

/-- C15 (evaluation order, amended): the argument of an application is bound unevaluated
and is evaluated only by the memoising lookup of the parameter. For every parameter `x`,
constant `k` and argument `a`, `evaluate(App (Abs x (Const k)) a)` returns `Const k`
without any diagnostic and without any primitive firing, for every fuel from 3 on. When
the body is the parameter itself and `foo` is a non-empty name that is in neither
registry, `evaluate(App (Abs x (Id x)) (App (Id foo) (Const c)))` returns no result, for
every fuel from 5 on. -/
theorem C15_argument_bound_unevaluated (ext : Externals) :
    (∀ (x : String) (k : Int) (a : TreeNode) (n : Nat),
      (evaluate ext (n + 3) (AppK (AbsK x (ConstK k)) a)).value = some (some (ConstK k)) ∧
      (evaluate ext (n + 3) (AppK (AbsK x (ConstK k)) a)).diagnostics = [] ∧
      (evaluate ext (n + 3) (AppK (AbsK x (ConstK k)) a)).primitiveCalls = []) ∧
    (∀ (x foo : String) (c : Int) (n : Nat),
      resolveFunction ext foo = none → foo ≠ "" →
      (evaluate ext (n + 5) (AppK (AbsK x (IdK x)) (AppK (IdK foo) (ConstK c)))).value
        = some none) := by
  have hG := isNull_globalEnvironment ext Memory.empty
  have hm := errOut_globalEnvironment ext
  have hp := primCalls_globalEnvironment ext
  refine ⟨?_, ?_⟩
  · intro x k a n
    have key : ∃ m, evaluate ext (n + 3) (AppK (AbsK x (ConstK k)) a)
        = Run.done (some (ConstK k)) m ∧ m.errOut = [] ∧ m.primCalls = [] := by
      unfold evaluate
      generalize (buildGlobalEnvironment ext Memory.empty).1 = G at *
      generalize (buildGlobalEnvironment ext Memory.empty).2 = m0 at *
      simp [evaluate_loop_succ, resolveFreeVariables_succ, resolveLoop, cek_canTerminate,
        isValue, step, valueStep, cek_newEnvironment, hm, hp, FV, newVarSet, vs_asList]
    obtain ⟨m, h, he, hc⟩ := key
    rw [h]
    exact ⟨rfl, he, hc⟩
  · intro x foo c n hfoo hne
    have hlook := fun ev m => lookup_global_unbound ext ev foo hfoo m
    have hne2 : ¬ foo = "" := hne
    have key : ∃ m, evaluate ext (n + 5) (AppK (AbsK x (IdK x)) (AppK (IdK foo) (ConstK c)))
        = Run.done none m := by
      unfold evaluate
      generalize (buildGlobalEnvironment ext Memory.empty).1 = G at *
      generalize (buildGlobalEnvironment ext Memory.empty).2 = m0 at *
      simp [evaluate_loop_succ, resolveFreeVariables_succ, resolveLoop, cek_canTerminate,
        isValue, step, valueStep, lookupVariableWith, cek_newEnvironment, duplicateTree, hG,
        hm, FV, addVar, newVarSet, contains, vs_asList, unionVarSet, TreeNode.kind,
        Nat.add_assoc, hfoo, hne2, hlook, Environment.binds, Memory.Intact.refl,
        Memory.intact_alloc_iff, Memory.intact_setSlot_iff, Memory.intact_printErr_iff]
    obtain ⟨m, h⟩ := key
    rw [h]
    rfl

/-- Witness of C15 (amended): `((lambda x x) (foo 1))` returns no result. -/
theorem C15_argument_bound_unevaluated_witness :
    resolveFunction churchExternals "foo" = none ∧ "foo" ≠ "" ∧
    (evaluate churchExternals (0 + 5)
      (AppK (AbsK "x" (IdK "x")) (AppK (IdK "foo") (ConstK 1)))).value = some none :=
  ⟨by decide, by decide,
    (C15_argument_bound_unevaluated churchExternals).2 "x" "foo" 1 0 (by decide)
      (by decide)⟩

/-- C16, evaluated on the code: in `((lambda and (lambda y and)) 7)` the parameter is
named like a standard function. The final resolution asks `resolveFunction` first and
skips the name, so the result is `(lambda y and)`, in which `and` now reads as the
standard function, instead of `(lambda y 7)`. The identifier rule of the machine looks
the environment up first: `((lambda and (+ and 1)) 7)` gives `8`. With a parameter that
is no registry name the result is as the claim says. -/
theorem C16_registry_name_shadows_parameter_in_result :
    (evaluate churchExternals 3
      (AppK (AbsK "and" (AbsK "y" (IdK "and"))) (ConstK 7))).value
      = some (some (AbsK "y" (IdK "and"))) ∧
    (evaluate churchExternals 7
      (AppK (AbsK "and" (PrimiK "+" (IdK "and") (ConstK 1))) (ConstK 7))).value
      = some (some (ConstK 8)) ∧
    (evaluate churchExternals 3
      (AppK (AbsK "n" (AbsK "y" (IdK "n"))) (ConstK 7))).value
      = some (some (AbsK "y" (ConstK 7))) := by
  decide

/-! ## Free variables of a substitution, whatever the fuel -/

/-- A name that no frame of the chain binds is not found, whatever the store. -/
theorem lookup_unbound (ev : State → Memory → Run (Option State)) (name : String)
    (env : Environment) (h : env.binds name = false) (m : Memory) :
    lookupVariableWith ev name env m = Run.done none m := by
  induction env with
  | null => rfl
  | frame id fname parent ih =>
    simp only [Environment.binds, Bool.or_eq_false_iff] at h
    simp only [lookupVariableWith, h.1, Bool.false_eq_true, if_false]
    exact ih h.2

/-- C19, evaluated on the code: `printExpression` has no case for a constant, so the
result `Const 1` of scenario 1 is printed as `Unknown expression kind.` followed by a
newline, not as `1`; the same holds for every constant. For identifiers, abstractions and
applications the pieces written are those of the specified pretty form. -/
theorem C19_constant_printed_as_unknown_kind :
    printExpression (ConstK 1) = ["Unknown expression kind.\n"] ∧
    (∀ c, printExpression (ConstK c) = ["Unknown expression kind.\n"]) ∧
    (∀ n, printExpression (IdK n) = [n]) ∧
    (∀ x b, printExpression (AbsK x b)
      = ["(lambda "] ++ printExpression (IdK x) ++ [" "] ++ printExpression b ++ [")"]) ∧
    (∀ f a, printExpression (AppK f a) = printExpression f ++ [" "] ++ printExpression a) :=
  ⟨rfl, fun _ => rfl, fun _ => rfl, fun _ _ => rfl, fun _ _ => rfl⟩

/-! ## The memoising lookup -/

/-- A run that returns success ends in a state that can terminate. -/
theorem canTerminate_of_evaluate (ext : Externals) (fuel : Nat) : ∀ (s : State) (m : Memory)
    (st : State) (m1 : Memory), _evaluate ext fuel s m = Run.done (some st) m1 →
    cek_canTerminate st = true := by
  induction fuel with
  | zero => intro s m st m1 h; simp [_evaluate] at h
  | succ fuel ih =>
    intro s m st m1 h
    rw [evaluate_loop_succ] at h
    by_cases hc : cek_canTerminate s = true
    · simp only [hc, if_true, Run.done.injEq, Option.some.injEq] at h
      rw [← h.1]
      exact hc
    · have hc2 : cek_canTerminate s = false := by simpa using hc
      simp only [hc2, Bool.false_eq_true, if_false] at h
      cases he : s.closure.expr with
      | none => simp [he] at h
      | some expr =>
        simp only [he] at h
        cases hs : step ext (_evaluate ext fuel) s expr m with
        | next s2 m2 =>
          simp only [hs] at h
          exact ih s2 m2 st m1 h
        | return0 m2 => simp [hs] at h
        | crash => simp [hs] at h
        | timeout => simp [hs] at h

/-- A lookup only depends on the frame it stops on. -/
theorem lookup_of_find (ev : State → Memory → Run (Option State)) (name : String)
    (env : Environment) (id : Nat) (h : env.find name = some id) (m : Memory) :
    lookupVariableWith ev name env m
      = lookupVariableWith ev name (Environment.frame id name Environment.null) m := by
  induction env with
  | null => simp [Environment.find] at h
  | frame fid fname parent ih =>
    simp only [Environment.find] at h
    by_cases hn : (name == fname) = true
    · simp only [hn, if_true, Option.some.injEq] at h
      subst h
      simp only [lookupVariableWith, hn, if_true, beq_self_eq_true]
    · have hn2 : (name == fname) = false := by simpa using hn
      simp only [hn2, Bool.false_eq_true, if_false] at h
      simp only [lookupVariableWith, hn2, Bool.false_eq_true, if_false]
      exact ih h


/-- C18 as stated fails: the frame of `x` holds the constant `1` under a non-null
environment. The first lookup returns it under a sentinel frame (frame 2) and memoises
that closure; the second lookup evaluates the memoised closure again, because its
environment is not null, and returns it under one more sentinel frame (frame 3): the two
closures have the same expression and different environments, and the frame of `x` is
rewritten a second time. -/
theorem C18_counterexample_second_lookup_adds_frame :
    (lookupVariable churchExternals 1 "x" twoFramesEnv twoFrames).value
      = some (some ⟨some (ConstK 1),
          Environment.frame 2 "" (Environment.frame 0 "g" Environment.null)⟩) ∧
    (lookupVariableAgain churchExternals 1 "x" twoFramesEnv twoFrames).value
      = some (some ⟨some (ConstK 1), Environment.frame 3 ""
          (Environment.frame 2 "" (Environment.frame 0 "g" Environment.null))⟩) ∧
    (lookupVariable churchExternals 1 "x" twoFramesEnv twoFrames).slot 1
      ≠ (lookupVariableAgain churchExternals 1 "x" twoFramesEnv twoFrames).slot 1 := by
  decide

/-- C18 (memoising lookup, amended): let `id` be the frame on which the lookup of `x`
stops. When that frame holds a closure with a non-null environment and the nested run on
it returns success, the lookup returns the final control closure of that run, whose
expression is a value on which the machine can terminate, and writes it into the frame.
When the frame holds a closure `c` whose expression is a value (if it is an identifier,
one that the environment of `c` under a sentinel frame does not bind), a lookup (with any
fuel from 1 on) returns a closure with the same expression: if the environment of `c` is
null, it returns `c` and leaves the store as it is; otherwise it returns `c` under one
fresh sentinel frame and rewrites the frame `id` with that closure, changing no other
frame that exists. -/
theorem C18_lookup_of_reduced_frame (ext : Externals) (x : String) (env : Environment)
    (id : Nat) (hfind : env.find x = some id) :
    (∀ (fuel : Nat) (m : Memory) (c : Closure) (st : State) (m2 : Memory),
      m.slots id = some c → c.env.isNull = false →
      _evaluate ext fuel ⟨⟨c.expr, Environment.frame m.next "" c.env⟩, []⟩
        (m.alloc ⟨none, Environment.null⟩) = Run.done (some st) m2 →
      lookupVariable ext fuel x env m
        = Run.done (some ⟨st.closure.expr, st.closure.env⟩)
            (m2.setSlot id ⟨st.closure.expr, st.closure.env⟩) ∧
      isValue st.closure.expr = true ∧ cek_canTerminate st = true) ∧
    (∀ (fuel : Nat) (m : Memory) (c : Closure),
      m.slots id = some c → isValue c.expr = true →
      (∀ name, c.expr = some (IdK name) →
        (Environment.frame m.next "" c.env).binds name = false) →
      lookupVariable ext (fuel + 1) x env m
        = if c.env.isNull then Run.done (some c) m
          else Run.done (some ⟨c.expr, Environment.frame m.next "" c.env⟩)
            ((m.alloc ⟨none, Environment.null⟩).setSlot id
              ⟨c.expr, Environment.frame m.next "" c.env⟩)) := by
  refine ⟨?_, ?_⟩
  · intro fuel m c st m2 hslot hnull hrun
    have hct := canTerminate_of_evaluate ext fuel _ _ st m2 hrun
    refine ⟨?_, ?_, hct⟩
    · unfold lookupVariable
      rw [lookup_of_find _ x env id hfind]
      simp [lookupVariableWith, hslot, hnull, cek_newEnvironment, duplicateTree, hrun]
    · simp only [cek_canTerminate, Bool.and_eq_true] at hct
      have h2 := hct.2
      cases he : st.closure.expr with
      | none => simp [he, isValue] at h2
      | some e =>
        cases e <;> simp_all [isValue]
  · intro fuel m c hslot hval hid
    unfold lookupVariable
    rw [lookup_of_find _ x env id hfind]
    by_cases hnull : c.env.isNull = true
    · simp [lookupVariableWith, hslot, hnull]
    · have hnull2 : c.env.isNull = false := by simpa using hnull
      have hct : cek_canTerminate ⟨⟨c.expr, Environment.frame m.next "" c.env⟩, []⟩ = true := by
        cases he : c.expr with
        | none => simp [he, isValue] at hval
        | some e =>
          cases e with
          | IdK name => simp [cek_canTerminate, hid name he]
          | ConstK v => simp [cek_canTerminate, isValue]
          | AbsK p b => simp [cek_canTerminate, isValue]
          | AppK f a => simp [he, isValue] at hval
          | PrimiK op l r => simp [he, isValue] at hval
      simp [lookupVariableWith, hslot, hnull2, cek_newEnvironment, duplicateTree,
        evaluate_loop_succ, hct]

/-- Witness of C18 (amended) on the store `twoFrames`: the frame of `x` holds the value
`1` under a non-null environment, and the lookup returns it under the sentinel frame 2. -/
theorem C18_lookup_of_reduced_frame_witness :
    twoFramesEnv.find "x" = some 1 ∧
    twoFrames.slots 1 = some ⟨some (ConstK 1), Environment.frame 0 "g" Environment.null⟩ ∧
    isValue (some (ConstK 1)) = true ∧
    (lookupVariable churchExternals (0 + 1) "x" twoFramesEnv twoFrames).value
      = some (some ⟨some (ConstK 1),
          Environment.frame 2 "" (Environment.frame 0 "g" Environment.null)⟩) :=
  ⟨by decide, by decide, by decide, by
    rw [(C18_lookup_of_reduced_frame churchExternals "x" twoFramesEnv 1 (by decide)).2 0
      twoFrames ⟨some (ConstK 1), Environment.frame 0 "g" Environment.null⟩ (by decide)
      (by decide) (fun name h => by cases h)]
    rfl⟩

/-! ## Termination of substitution -/

theorem pickName_eq_attempts (set : VarSet) (orig : String) (fuel a : Nat) :
    pickName set orig fuel a = orig ++ underscores (pickNameAttempts set orig fuel a) := by
  induction fuel generalizing a with
  | zero => rfl
  | succ fuel ih =>
    simp only [pickName, pickNameAttempts]
    split
    · exact ih (a + 1)
    · rfl

/-- The name-picking loop runs at most `set.length + 1` times. -/
theorem pickNameAttempts_le (set : VarSet) (orig : String) :
    pickNameAttempts set orig (set.length + 1) 0 ≤ set.length + 1 := by
  obtain ⟨k, _, hk, _, hleast⟩ := pickName_spec set orig
  obtain ⟨k1, h1, h2, h3⟩ := exists_fresh_candidate set orig
  rw [pickName_eq_attempts] at hk
  have hkk := candidate_injective orig _ _ hk
  rw [hkk]
  by_contra hlt
  exact h3 (hleast k1 h1 (by omega))

theorem length_filter_lt_of_imp {α : Type} (p q : α → Bool) (l : List α)
    (himp : ∀ s, q s = true → p s = true) (a : α) (ha : a ∈ l) (hpa : p a = true)
    (hqa : q a = false) : (l.filter q).length < (l.filter p).length := by
  induction l with
  | nil => exact absurd ha (List.not_mem_nil a)
  | cons b l ih =>
    have hle : (l.filter q).length ≤ (l.filter p).length := by
      clear ih ha
      induction l with
      | nil => simp
      | cons c l ih2 =>
        simp only [List.filter_cons]
        by_cases hq : q c = true
        · simp [hq, himp c hq, ih2]
        · have hq2 : q c = false := by simpa using hq
          by_cases hp : p c = true
          · simp [hq2, hp]; omega
          · have hp2 : p c = false := by simpa using hp
            simp [hq2, hp2, ih2]
    rcases List.mem_cons.1 ha with rfl | hmem
    · simp only [List.filter_cons, hpa, hqa, if_true, Bool.false_eq_true, if_false,
        List.length_cons]
      omega
    · have := ih hmem
      simp only [List.filter_cons]
      by_cases hq : q b = true
      · simp [hq, himp b hq]; omega
      · have hq2 : q b = false := by simpa using hq
        by_cases hp : p b = true
        · simp [hq2, hp]; omega
        · have hp2 : p b = false := by simpa using hp
          simp [hq2, hp2]; omega

theorem renameLoopCount_stop (fuel : Nat) (set : VarSet) (p : String) (b : TreeNode)
    (h : contains set p = false) : renameLoopCount (fuel + 1) set p b = some 0 := by
  rw [renameLoopCount]
  simp [h]

theorem renameLoopCount_step (fuel : Nat) (set : VarSet) (p : String) (b : TreeNode)
    (h : contains set p = true) :
    renameLoopCount (fuel + 1) set p b =
      match alphaConversion fuel (AbsK p b) with
      | some (AbsK parname1 body1) =>
        match renameLoopCount fuel set parname1 body1 with
        | some k => some (k + 1)
        | none => none
      | _ => none := by
  rw [renameLoopCount]
  simp only [h, if_true]

/-- The renaming loop terminates: every alpha conversion gives a strictly longer
parameter, so the loop runs at most as often as `set` has names at least as long as the
parameter. -/
theorem renameLoop_terminates (set : VarSet) (k : Nat) : ∀ (p : String) (b : TreeNode),
    (set.filter (fun s => decide (p.length ≤ s.length))).length ≤ k →
    ∃ p1 b1 cnt, size b1 = size b ∧ contains set p1 = false ∧
      cnt ≤ (set.filter (fun s => decide (p.length ≤ s.length))).length ∧
      ∀ fuel, 3 * size b + 2 + k ≤ fuel →
        renameLoop fuel set p b = some (p1, b1) ∧ renameLoopCount fuel set p b = some cnt := by
  induction k with
  | zero =>
    intro p b hk
    have hc : contains set p = false := by
      rw [contains_eq_false_iff]
      intro hmem
      have : 0 < (set.filter (fun s => decide (p.length ≤ s.length))).length :=
        List.length_pos_of_mem (List.mem_filter.2 ⟨hmem, by simp⟩)
      omega
    refine ⟨p, b, 0, rfl, hc, Nat.zero_le _, fun fuel hfuel => ?_⟩
    obtain ⟨f, rfl⟩ : ∃ f, fuel = f + 1 := ⟨fuel - 1, by omega⟩
    exact ⟨renameLoop_stop _ _ _ _ hc, renameLoopCount_stop _ _ _ _ hc⟩
  | succ k ih =>
    intro p b hk
    by_cases hc : contains set p = true
    · have hmem := (contains_iff _ _).1 hc
      have hlt := pickName_length_lt (FV b) p
      obtain ⟨b2, hr, _, ha⟩ := alphaConversion_rename p b
      have hdec : (set.filter (fun s => decide
            ((pickName (FV b) p ((FV b).length + 1) 0).length ≤ s.length))).length
          < (set.filter (fun s => decide (p.length ≤ s.length))).length := by
        apply length_filter_lt_of_imp _ _ set _ p hmem
        · simp
        · simp only [decide_eq_false_iff_not, Nat.not_le]
          exact hlt
        · intro s hs
          simp only [decide_eq_true_eq] at hs ⊢
          omega
      obtain ⟨p1, b1, cnt, hsz, hc1, hcnt, hrun⟩ :=
        ih (pickName (FV b) p ((FV b).length + 1) 0) b2 (by omega)
      refine ⟨p1, b1, cnt + 1, by rw [hsz, hr.size_eq], hc1, by omega, fun fuel hfuel => ?_⟩
      obtain ⟨f, rfl⟩ : ∃ f, fuel = f + 1 := ⟨fuel - 1, by omega⟩
      have hf : f = 3 * size b + 1 + (f - (3 * size b + 1)) := by omega
      have hrun2 := hrun f (by rw [hr.size_eq]; omega)
      rw [renameLoop_step _ _ _ _ hc, renameLoopCount_step _ _ _ _ hc, hf, ha, ← hf]
      simp only [hrun2.1, hrun2.2, and_self]
    · have hc2 : contains set p = false := by simpa using hc
      refine ⟨p, b, 0, rfl, hc2, Nat.zero_le _, fun fuel hfuel => ?_⟩
      obtain ⟨f, rfl⟩ : ∃ f, fuel = f + 1 := ⟨fuel - 1, by omega⟩
      exact ⟨renameLoop_stop _ _ _ _ hc2, renameLoopCount_stop _ _ _ _ hc2⟩

/-- `substitute` terminates on every input: from some fuel on, it returns one and the same
tree. -/
theorem substitute_total (n : Nat) : ∀ (e : TreeNode), size e ≤ n → ∀ (x : String)
    (v : TreeNode), ∃ r F, ∀ fuel, F ≤ fuel → substitute fuel e x v = some r := by
  induction n with
  | zero =>
    intro e he
    have := size_pos e
    omega
  | succ n ih =>
    intro e he x v
    cases e with
    | IdK y =>
      refine ⟨if y == x then v else IdK y, 1, fun fuel hfuel => ?_⟩
      obtain ⟨f, rfl⟩ : ∃ f, fuel = f + 1 := ⟨fuel - 1, by omega⟩
      rw [substitute_IdK]
      split <;> rfl
    | ConstK c =>
      refine ⟨ConstK c, 1, fun fuel hfuel => ?_⟩
      obtain ⟨f, rfl⟩ : ∃ f, fuel = f + 1 := ⟨fuel - 1, by omega⟩
      exact substitute_ConstK _ _ _ _
    | AbsK y b =>
      have hb : size b ≤ n := by simp only [size] at he; omega
      by_cases hy : y = x
      · subst hy
        refine ⟨AbsK y b, 1, fun fuel hfuel => ?_⟩
        obtain ⟨f, rfl⟩ : ∃ f, fuel = f + 1 := ⟨fuel - 1, by omega⟩
        exact substitute_AbsK_shadow _ _ _ _
      · obtain ⟨p1, b1, cnt, hsz, _, _, hrun⟩ := renameLoop_terminates (FV v) _ y b
          (Nat.le_refl _)
        obtain ⟨r1, F1, h1⟩ := ih b1 (by rw [hsz]; exact hb) x v
        refine ⟨AbsK p1 r1, max (3 * size b + 2 +
          ((FV v).filter (fun s => decide (y.length ≤ s.length))).length) F1 + 1,
          fun fuel hfuel => ?_⟩
        obtain ⟨f, rfl⟩ : ∃ f, fuel = f + 1 := ⟨fuel - 1, by omega⟩
        rw [substitute_AbsK _ _ _ _ _ hy, (hrun f (by omega)).1]
        simp only [h1 f (by omega)]
    | AppK g a =>
      have hg : size g ≤ n := by simp only [size] at he; omega
      have ha : size a ≤ n := by simp only [size] at he; omega
      obtain ⟨g1, F1, h1⟩ := ih g hg x v
      obtain ⟨a1, F2, h2⟩ := ih a ha x v
      refine ⟨AppK g1 a1, max F1 F2 + 1, fun fuel hfuel => ?_⟩
      obtain ⟨f, rfl⟩ : ∃ f, fuel = f + 1 := ⟨fuel - 1, by omega⟩
      rw [substitute_AppK, h1 f (by omega), h2 f (by omega)]
    | PrimiK op l r0 =>
      have hl : size l ≤ n := by simp only [size] at he; omega
      have hr : size r0 ≤ n := by simp only [size] at he; omega
      obtain ⟨l1, F1, h1⟩ := ih l hl x v
      obtain ⟨r1, F2, h2⟩ := ih r0 hr x v
      refine ⟨PrimiK op l1 r1, max F1 F2 + 1, fun fuel hfuel => ?_⟩
      obtain ⟨f, rfl⟩ : ∃ f, fuel = f + 1 := ⟨fuel - 1, by omega⟩
      rw [substitute_PrimiK, h1 f (by omega), h2 f (by omega)]

/-- Termination of `substitute` on names as strings (see `nameFitsBlock`): for every tree
`e`, identifier `x` and tree `v` there is a fuel from which on `substitute e x v` returns
one and the same tree; alpha conversion of an abstraction returns an abstraction whose
body has the size of the original body; the renaming loop on a set of names (`FV(v)` in
`substitute`) ends after at most as many alpha conversions as the set has names; and the
name-picking loop of `alphaConversion` ends after at most `|FV(body)| + 1` iterations, on
the name with that many underscores. -/
theorem substitute_terminates :
    (∀ (e : TreeNode) (x : String) (v : TreeNode),
      ∃ F r, ∀ n, substitute (F + n) e x v = some r) ∧
    (∀ (x : String) (b : TreeNode), ∃ x1 b1, size b1 = size b ∧
      ∀ n, alphaConversion (3 * size b + 1 + n) (AbsK x b) = some (AbsK x1 b1)) ∧
    (∀ (v : TreeNode) (p : String) (b : TreeNode), ∃ F p1 b1 cnt, cnt ≤ (FV v).length ∧
      ∀ n, renameLoop (F + n) (FV v) p b = some (p1, b1) ∧
        renameLoopCount (F + n) (FV v) p b = some cnt) ∧
    (∀ (x : String) (b : TreeNode),
      pickNameAttempts (FV b) x ((FV b).length + 1) 0 ≤ (FV b).length + 1 ∧
      pickName (FV b) x ((FV b).length + 1) 0
        = x ++ underscores (pickNameAttempts (FV b) x ((FV b).length + 1) 0)) := by
  refine ⟨?_, ?_, ?_, ?_⟩
  · intro e x v
    obtain ⟨r, F, h⟩ := substitute_total (size e) e (Nat.le_refl _) x v
    exact ⟨F, r, fun n => h _ (Nat.le_add_right _ _)⟩
  · intro x b
    obtain ⟨b1, hr, _, ha⟩ := alphaConversion_rename x b
    exact ⟨_, b1, hr.size_eq, ha⟩
  · intro v p b
    obtain ⟨p1, b1, cnt, _, _, hcnt, hrun⟩ := renameLoop_terminates (FV v) _ p b (Nat.le_refl _)
    refine ⟨_, p1, b1, cnt, Nat.le_trans hcnt (List.length_filter_le _ _),
      fun n => hrun _ (Nat.le_add_right _ _)⟩
  · intro x b
    exact ⟨pickNameAttempts_le _ _, pickName_eq_attempts _ _ _ _⟩

/-- C20, evaluated on the code: in
`substitute((lambda aaaaaaaaaaaaaaaaaaaaaaa aaaaaaaaaaaaaaaaaaaaaaa), z, aaaaaaaaaaaaaaaaaaaaaaa)`
the parameter is free in the substituted tree, so the renaming loop calls
`alphaConversion` once, and that call stores the 25 bytes of the fresh name into a block
of 24: the call writes outside the memory it owns, and what the process does from there
on is not determined by the program. This is the defect of the block size shown for
C4. -/
theorem C20_renaming_writes_outside_its_block :
    contains (FV (IdK longName)) longName = true ∧
    renameLoopCount 4 (FV (IdK longName)) longName (IdK longName) = some 1 ∧
    pickNameAttempts (FV (IdK longName)) longName ((FV (IdK longName)).length + 1) 0 = 1 ∧
    nameBlockSize longName 1 = 24 ∧
    nameBytesStored longName 1 = 25 ∧
    nameFitsBlock longName 1 = false := by
  decide

/-! ## The branch for an identifier in operator position -/

theorem append_ne_append (a b s t : String) (h1 : ¬ t.data <:+ s.data)
    (h2 : ¬ s.data <:+ t.data) : a ++ s ≠ b ++ t := by
  intro h
  have hd : a.data ++ s.data = b.data ++ t.data := by
    have := congrArg String.data h
    simpa [String.data_append] using this
  have hs : s.data <:+ a.data ++ s.data := List.suffix_append _ _
  have ht : t.data <:+ a.data ++ s.data := by
    rw [hd]
    exact List.suffix_append _ _
  rcases Nat.le_total t.data.length s.data.length with hle | hle
  · exact h1 (List.suffix_of_suffix_length_le ht hs hle)
  · exact h2 (List.suffix_of_suffix_length_le hs ht hle)

theorem ne_append_of_not_suffix (x b t : String) (h : ¬ t.data <:+ x.data) : x ≠ b ++ t := by
  intro hx
  apply h
  rw [hx, String.data_append]
  exact List.suffix_append _ _

theorem definedVariable_ne (n name : String) :
    "Error: " ++ n ++ " is not a defined variable or function.\n"
      ≠ undefinedFunctionMessage name :=
  append_ne_append _ _ _ _ (by decide) (by decide)

theorem onlyConstants_ne (op name : String) :
    "Error: " ++ op ++ " can only be applied on constants.\n" ≠ undefinedFunctionMessage name :=
  append_ne_append _ _ _ _ (by decide) (by decide)

theorem notDefined_ne (n name : String) :
    "Error: Variable " ++ n ++ " is not defined.\n" ≠ undefinedFunctionMessage name :=
  append_ne_append _ _ _ _ (by decide) (by decide)

theorem applyConstant_ne (name : String) :
    "Error: cannot apply a constant to any argument.\n" ≠ undefinedFunctionMessage name ∧
    "Expression:\t" ≠ undefinedFunctionMessage name ∧
    "\n" ≠ undefinedFunctionMessage name :=
  ⟨ne_append_of_not_suffix _ _ _ (by decide), ne_append_of_not_suffix _ _ _ (by decide),
    ne_append_of_not_suffix _ _ _ (by decide)⟩

theorem noUndefinedFunctionSince_refl (m : Memory) : m.NoUndefinedFunctionSince m :=
  fun _ h => h

theorem Memory.NoUndefinedFunctionSince.andThen {m m1 m2 : Memory}
    (h1 : m.NoUndefinedFunctionSince m1) (h2 : m1.NoUndefinedFunctionSince m2) :
    m.NoUndefinedFunctionSince m2 :=
  fun name h => h1 name (h2 name h)

theorem noUndefinedFunctionSince_of_errOut {m m1 : Memory} (h : m1.errOut = m.errOut) :
    m.NoUndefinedFunctionSince m1 := by
  intro name hn
  rw [h] at hn
  exact hn

theorem noUndefinedFunctionSince_printErr (m : Memory) (s : String)
    (h : ∀ name, s ≠ undefinedFunctionMessage name) :
    m.NoUndefinedFunctionSince (m.printErr s) := by
  intro name hn
  rw [Memory.errOut_printErr, List.mem_append, List.mem_singleton] at hn
  rcases hn with hn | hn
  · exact hn
  · exact absurd hn.symm (h name)

/-- A lookup writes no diagnostic of the branch for an identifier in operator position,
when the nested run writes none. -/
theorem lookup_noUndefinedFunction (ev : State → Memory → Run (Option State))
    (hev : ∀ s m r m1, ev s m = Run.done r m1 → m.NoUndefinedFunctionSince m1)
    (name : String) (env : Environment) (m : Memory) (r : Option Closure) (m1 : Memory)
    (h : lookupVariableWith ev name env m = Run.done r m1) :
    m.NoUndefinedFunctionSince m1 := by
  induction env with
  | null =>
    simp only [lookupVariableWith, Run.done.injEq] at h
    rw [← h.2]
    exact noUndefinedFunctionSince_refl m
  | frame id fname parent ih =>
    rw [lookupVariableWith] at h
    by_cases hname : (name == fname) = true
    · simp only [hname, if_true] at h
      cases hslot : m.slots id with
      | none => simp [hslot] at h
      | some closure =>
        simp only [hslot] at h
        by_cases hnull : closure.env.isNull = true
        · simp only [hnull, if_true, Run.done.injEq] at h
          rw [← h.2]
          exact noUndefinedFunctionSince_refl m
        · simp only [hnull, Bool.false_eq_true, if_false] at h
          cases hrun : ev ⟨⟨duplicateTree closure.expr,
              (cek_newEnvironment "" ⟨none, Environment.null⟩ closure.env m).1⟩, []⟩
              (cek_newEnvironment "" ⟨none, Environment.null⟩ closure.env m).2 with
          | crash => simp [hrun] at h
          | timeout => simp [hrun] at h
          | done st m2 =>
            have h2 := hev _ _ _ _ hrun
            have h0 : m.NoUndefinedFunctionSince
                (cek_newEnvironment "" ⟨none, Environment.null⟩ closure.env m).2 :=
              noUndefinedFunctionSince_of_errOut rfl
            cases st with
            | none =>
              simp only [hrun] at h
              cases hs2 : m2.slots id with
              | none => simp [hs2] at h
              | some c =>
                simp only [hs2, Run.done.injEq] at h
                rw [← h.2]
                exact h0.andThen h2
            | some st =>
              simp only [hrun, Run.done.injEq] at h
              rw [← h.2]
              exact (h0.andThen h2).andThen (noUndefinedFunctionSince_of_errOut rfl)
    · simp only [hname, Bool.false_eq_true, if_false] at h
      exact ih h

/-- The branch for a value writes no diagnostic of the branch for an identifier in
operator position, when the value is not an identifier. -/
theorem valueStep_noUndefinedFunction (ext : Externals) (state : State) (expr : TreeNode)
    (hexpr : ∀ n, expr ≠ IdK n) (m : Memory) :
    (∀ s1 m1, valueStep ext state expr m = Step.next s1 m1 → m.NoUndefinedFunctionSince m1) ∧
    (∀ m1, valueStep ext state expr m = Step.return0 m1 → m.NoUndefinedFunctionSince m1) := by
  obtain ⟨cl0, k⟩ := state
  cases k with
  | nil => simp [valueStep]
  | cons ctn rest =>
    obtain ⟨tag, ce, cenv⟩ := ctn
    cases tag with
    | ArgKK =>
      cases expr with
      | IdK n => exact absurd rfl (hexpr n)
      | ConstK c =>
        refine ⟨fun s1 m1 h => ?_, fun m1 h => ?_⟩
        · simp [valueStep] at h
        · simp only [valueStep, Step.return0.injEq] at h
          rw [← h]
          exact (((noUndefinedFunctionSince_printErr _ _
            (fun n => (applyConstant_ne n).1)).andThen
            (noUndefinedFunctionSince_printErr _ _
              (fun n => (applyConstant_ne n).2.1))).andThen
            (noUndefinedFunctionSince_of_errOut rfl)).andThen
            (noUndefinedFunctionSince_printErr _ _ (fun n => (applyConstant_ne n).2.2))
      | AbsK x b =>
        refine ⟨fun s1 m1 h => ?_, fun m1 h => ?_⟩
        · simp only [valueStep, Step.next.injEq] at h
          rw [← h.2]
          exact noUndefinedFunctionSince_of_errOut rfl
        · simp [valueStep] at h
      | AppK f a => simp [valueStep]
      | PrimiK op l r0 => simp [valueStep]
    | OprKK =>
      cases ce with
      | none => simp [valueStep]
      | some ce =>
        cases ce with
        | PrimiK op l r0 =>
          simp only [valueStep]
          split
          · refine ⟨fun s1 m1 h => ?_, fun m1 h => ?_⟩
            · simp only [Step.next.injEq] at h
              rw [← h.2]
              exact noUndefinedFunctionSince_of_errOut rfl
            · simp at h
          · refine ⟨fun s1 m1 h => ?_, fun m1 h => ?_⟩
            · simp at h
            · simp only [Step.return0.injEq] at h
              rw [← h]
              exact noUndefinedFunctionSince_printErr _ _
                (fun n => onlyConstants_ne op n)
        | _ => simp [valueStep]
    | OpdKK =>
      cases ce with
      | none => simp [valueStep]
      | some ce =>
        cases ce with
        | PrimiK op l r0 =>
          refine ⟨fun s1 m1 h => ?_, fun m1 h => ?_⟩
          · simp only [valueStep, Step.next.injEq] at h
            rw [← h.2]
            exact noUndefinedFunctionSince_refl m
          · simp [valueStep] at h
        | _ => simp [valueStep]

/-- One iteration of the loop of `_evaluate` writes no diagnostic of the branch for an
identifier in operator position, when the nested run writes none. -/
theorem step_noUndefinedFunction (ext : Externals) (ev : State → Memory → Run (Option State))
    (hev : ∀ s m r m1, ev s m = Run.done r m1 → m.NoUndefinedFunctionSince m1)
    (state : State) (expr : TreeNode) (m : Memory) :
    (∀ s1 m1, step ext ev state expr m = Step.next s1 m1 → m.NoUndefinedFunctionSince m1) ∧
    (∀ m1, step ext ev state expr m = Step.return0 m1 → m.NoUndefinedFunctionSince m1) := by
  cases expr with
  | IdK name =>
    simp only [step]
    cases hl : lookupVariableWith ev name state.closure.env m with
    | crash => simp
    | timeout => simp
    | done r m1 =>
      have h1 := lookup_noUndefinedFunction ev hev _ _ _ _ _ hl
      cases r with
      | some c =>
        refine ⟨fun s1 m2 h => ?_, fun m2 h => ?_⟩
        · simp only [Step.next.injEq] at h
          rw [← h.2]
          exact h1
        · simp at h
      | none =>
        cases hr : resolveFunction ext name with
        | none =>
          refine ⟨fun s1 m2 h => ?_, fun m2 h => ?_⟩
          · simp at h
          · simp only [Step.return0.injEq] at h
            rw [← h]
            exact h1.andThen (noUndefinedFunctionSince_printErr _ _
              (fun n => definedVariable_ne name n))
        | some f =>
          refine ⟨fun s1 m2 h => ?_, fun m2 h => ?_⟩
          · simp only [Step.next.injEq] at h
            rw [← h.2]
            exact h1
          · simp at h
  | AppK f a =>
    refine ⟨fun s1 m1 h => ?_, fun m1 h => ?_⟩
    · simp only [step, Step.next.injEq] at h
      rw [← h.2]
      exact noUndefinedFunctionSince_refl m
    · simp [step] at h
  | PrimiK op l r0 =>
    refine ⟨fun s1 m1 h => ?_, fun m1 h => ?_⟩
    · cases l <;> simp only [step, Step.next.injEq] at h <;>
        first
        | (rw [← h.2]; exact noUndefinedFunctionSince_refl m)
        | exact absurd h (by simp)
    · cases l <;> simp [step] at h
  | ConstK c =>
    simp only [step]
    exact valueStep_noUndefinedFunction ext state (ConstK c) (fun n h => by cases h) m
  | AbsK x b =>
    simp only [step]
    exact valueStep_noUndefinedFunction ext state (AbsK x b) (fun n h => by cases h) m

/-- No run of `_evaluate` writes a diagnostic of the branch for an identifier in operator
position. -/
theorem evaluate_loop_noUndefinedFunction (ext : Externals) (fuel : Nat) :
    ∀ (s : State) (m : Memory) (r : Option State) (m1 : Memory),
      _evaluate ext fuel s m = Run.done r m1 → m.NoUndefinedFunctionSince m1 := by
  induction fuel with
  | zero =>
    intro s m r m1 h
    simp [_evaluate] at h
  | succ fuel ih =>
    intro s m r m1 h
    rw [evaluate_loop_succ] at h
    by_cases hc : cek_canTerminate s = true
    · simp only [hc, if_true, Run.done.injEq] at h
      rw [← h.2]
      exact noUndefinedFunctionSince_refl m
    · simp only [hc, Bool.false_eq_true, if_false] at h
      cases he : s.closure.expr with
      | none => simp [he] at h
      | some expr =>
        simp only [he] at h
        have hs := step_noUndefinedFunction ext (_evaluate ext fuel) ih s expr m
        cases hst : step ext (_evaluate ext fuel) s expr m with
        | next s1 m2 =>
          simp only [hst] at h
          exact (hs.1 s1 m2 hst).andThen (ih _ _ _ _ h)
        | return0 m2 =>
          simp only [hst, Run.done.injEq] at h
          rw [← h.2]
          exact hs.2 m2 hst
        | crash => simp [hst] at h
        | timeout => simp [hst] at h

/-- The iterations of the loop of `_evaluate` write no diagnostic of the branch for an
identifier in operator position. -/
theorem iterations_noUndefinedFunction (ext : Externals) (k : Nat) :
    ∀ (fuel : Nat) (s : State) (m : Memory) (s1 : State) (m1 : Memory),
      iterations ext fuel k s m = some (s1, m1) → m.NoUndefinedFunctionSince m1 := by
  induction k with
  | zero =>
    intro fuel s m s1 m1 h
    simp only [iterations, Option.some.injEq, Prod.mk.injEq] at h
    rw [← h.2]
    exact noUndefinedFunctionSince_refl m
  | succ k ih =>
    intro fuel s m s1 m1 h
    cases fuel with
    | zero => simp [iterations] at h
    | succ fuel =>
      rw [iterations] at h
      by_cases hc : cek_canTerminate s = true
      · simp [hc] at h
      · simp only [hc, Bool.false_eq_true, if_false] at h
        cases he : s.closure.expr with
        | none => simp [he] at h
        | some expr =>
          simp only [he] at h
          have hs := step_noUndefinedFunction ext (_evaluate ext fuel)
            (evaluate_loop_noUndefinedFunction ext fuel) s expr m
          cases hst : step ext (_evaluate ext fuel) s expr m with
          | next s2 m2 =>
            simp only [hst] at h
            exact (hs.1 s2 m2 hst).andThen (ih _ _ _ _ _ h)
          | return0 m2 => simp [hst] at h
          | crash => simp [hst] at h
          | timeout => simp [hst] at h

/-- The loop of the final resolution writes no diagnostic of the branch for an identifier
in operator position, when the nested run and the recursive call write none. -/
theorem resolveLoop_noUndefinedFunction (ext : Externals)
    (ev : State → Memory → Run (Option State))
    (resolve : TreeNode → Environment → Memory → Run (Option TreeNode))
    (hev : ∀ s m r m1, ev s m = Run.done r m1 → m.NoUndefinedFunctionSince m1)
    (hres : ∀ e env m r m1, resolve e env m = Run.done r m1 → m.NoUndefinedFunctionSince m1)
    (fuel : Nat) (env : Environment) (l : List String) :
    ∀ (result : TreeNode) (m : Memory) (r : Option TreeNode) (m1 : Memory),
      resolveLoop ext ev resolve fuel env l result m = Run.done r m1 →
      m.NoUndefinedFunctionSince m1 := by
  induction l with
  | nil =>
    intro result m r m1 h
    simp only [resolveLoop, Run.done.injEq] at h
    rw [← h.2]
    exact noUndefinedFunctionSince_refl m
  | cons name l ih =>
    intro result m r m1 h
    rw [resolveLoop] at h
    cases hr : resolveFunction ext name with
    | some f =>
      simp only [hr] at h
      exact ih _ _ _ _ h
    | none =>
      simp only [hr] at h
      cases hl : lookupVariableWith ev name env m with
      | crash => simp [hl] at h
      | timeout => simp [hl] at h
      | done c m2 =>
        have h1 := lookup_noUndefinedFunction ev hev _ _ _ _ _ hl
        cases c with
        | none =>
          simp only [hl, Run.done.injEq] at h
          rw [← h.2]
          exact h1.andThen (noUndefinedFunctionSince_printErr _ _
            (fun n => notDefined_ne name n))
        | some closure =>
          simp only [hl] at h
          cases hce : closure.expr with
          | none => simp [hce] at h
          | some cexpr =>
            simp only [hce] at h
            cases hrs : resolve cexpr closure.env m2 with
            | crash => simp [hrs] at h
            | timeout => simp [hrs] at h
            | done t m3 =>
              have h2 := hres _ _ _ _ _ hrs
              cases t with
              | none =>
                simp only [hrs, Run.done.injEq] at h
                rw [← h.2]
                exact h1.andThen h2
              | some tmp =>
                simp only [hrs] at h
                cases hsub : substitute fuel result name tmp with
                | none => simp [hsub] at h
                | some result1 =>
                  simp only [hsub] at h
                  exact (h1.andThen h2).andThen (ih _ _ _ _ h)

/-- The final resolution writes no diagnostic of the branch for an identifier in operator
position. -/
theorem resolveFreeVariables_noUndefinedFunction (ext : Externals) (fuel : Nat) :
    ∀ (e : TreeNode) (env : Environment) (m : Memory) (r : Option TreeNode) (m1 : Memory),
      resolveFreeVariables ext fuel e env m = Run.done r m1 →
      m.NoUndefinedFunctionSince m1 := by
  induction fuel with
  | zero =>
    intro e env m r m1 h
    simp [resolveFreeVariables] at h
  | succ fuel ih =>
    intro e env m r m1 h
    rw [resolveFreeVariables_succ] at h
    exact resolveLoop_noUndefinedFunction ext _ _ (evaluate_loop_noUndefinedFunction ext fuel)
      ih fuel env _ _ _ _ _ h

/-- The driver writes no diagnostic of the branch for an identifier in operator
position. -/
theorem evaluate_noUndefinedFunction (ext : Externals) (fuel : Nat) (e : TreeNode)
    (name : String) : undefinedFunctionMessage name ∉ (evaluate ext fuel e).diagnostics := by
  have hm := errOut_globalEnvironment ext
  unfold evaluate
  cases hrun : _evaluate ext fuel ⟨⟨some e, (buildGlobalEnvironment ext Memory.empty).1⟩, []⟩
      (buildGlobalEnvironment ext Memory.empty).2 with
  | crash => simp [Run.diagnostics]
  | timeout => simp [Run.diagnostics]
  | done s m1 =>
    have h1 := evaluate_loop_noUndefinedFunction ext fuel _ _ _ _ hrun
    cases s with
    | none =>
      intro hmem
      have := h1 name hmem
      rw [hm] at this
      exact absurd this (List.not_mem_nil _)
    | some st =>
      simp only
      cases hce : st.closure.expr with
      | none => simp [Run.diagnostics]
      | some c =>
        simp only
        cases hres : resolveFreeVariables ext fuel c st.closure.env m1 with
        | crash => simp [Run.diagnostics]
        | timeout => simp [Run.diagnostics]
        | done r m2 =>
          have h2 := resolveFreeVariables_noUndefinedFunction ext fuel _ _ _ _ _ hres
          intro hmem
          have := h1 name (h2 name hmem)
          rw [hm] at this
          exact absurd this (List.not_mem_nil _)

/-- C21 (the branch for an identifier in operator position is unreachable): in every
iteration of the loop of `_evaluate` a control expression `Id name` is handled by the
identifier rule, whatever the continuation: the environment is looked up, then the
registries, and the continuation is left as it is. So an identifier that no frame of the
environment binds and no registry knows, met under any non-empty continuation (an `Arg`
frame on top included), makes `_evaluate` return failure with the diagnostic
`Error: name is not a defined variable or function.` The branch of the value rule that
would report `Error: name is not a predefined function.` on such a state is never
entered: no run of `_evaluate`, no sequence of iterations of its loop and no call of
`evaluate` writes that diagnostic, for any name. -/
theorem C21_operator_identifier_branch_unreachable (ext : Externals) :
    (∀ (ev : State → Memory → Run (Option State)) (name : String) (env : Environment)
        (k : List Continuation) (m : Memory),
      step ext ev ⟨⟨some (IdK name), env⟩, k⟩ (IdK name) m =
        match lookupVariableWith ev name env m with
        | Run.done none m1 =>
          match resolveFunction ext name with
          | none =>
            Step.return0
              (m1.printErr ("Error: " ++ name ++ " is not a defined variable or function.\n"))
          | some f => Step.next ⟨⟨some f, env⟩, k⟩ m1
        | Run.done (some closure) m1 =>
          Step.next ⟨⟨duplicateTree closure.expr, closure.env⟩, k⟩ m1
        | Run.crash => Step.crash
        | Run.timeout => Step.timeout) ∧
    (∀ (fuel : Nat) (name : String) (env : Environment) (ctn : Continuation)
        (rest : List Continuation) (m : Memory),
      env.binds name = false → resolveFunction ext name = none →
      _evaluate ext (fuel + 1) ⟨⟨some (IdK name), env⟩, ctn :: rest⟩ m
        = Run.done none
            (m.printErr ("Error: " ++ name ++ " is not a defined variable or function.\n"))) ∧
    (∀ (name : String) (env : Environment) (cl : Closure) (rest : List Continuation)
        (m : Memory), resolveFunction ext name = none →
      valueStep ext ⟨⟨some (IdK name), env⟩, ⟨ContinuationTag.ArgKK, cl⟩ :: rest⟩ (IdK name) m
        = Step.return0 (m.printErr (undefinedFunctionMessage name))) ∧
    (∀ (fuel : Nat) (s : State) (m : Memory) (r : Option State) (m1 : Memory),
      _evaluate ext fuel s m = Run.done r m1 → m.NoUndefinedFunctionSince m1) ∧
    (∀ (fuel k : Nat) (s : State) (m : Memory) (s1 : State) (m1 : Memory),
      iterations ext fuel k s m = some (s1, m1) → m.NoUndefinedFunctionSince m1) ∧
    (∀ (fuel : Nat) (e : TreeNode) (name : String),
      undefinedFunctionMessage name ∉ (evaluate ext fuel e).diagnostics) := by
  refine ⟨fun _ _ _ _ _ => rfl, ?_, ?_, evaluate_loop_noUndefinedFunction ext,
    fun fuel k => iterations_noUndefinedFunction ext k fuel, evaluate_noUndefinedFunction ext⟩
  · intro fuel name env ctn rest m hb hr
    rw [evaluate_loop_succ]
    simp [cek_canTerminate, step, lookup_unbound _ name env hb, hr]
  · intro name env cl rest m hr
    simp [valueStep, hr, undefinedFunctionMessage]

/-- Witness of C21: the run on `(foo 1)` is, after one iteration, on the identifier `foo`
under the `Arg` frame of `1`; `foo` is bound in no frame of the global environment and is
in no registry, and the run fails with the diagnostic of the identifier rule. -/
theorem C21_operator_identifier_branch_unreachable_witness :
    (buildGlobalEnvironment churchExternals Memory.empty).1.binds "foo" = false ∧
    resolveFunction churchExternals "foo" = none ∧
    (_evaluate churchExternals (0 + 1)
      ⟨⟨some (IdK "foo"), (buildGlobalEnvironment churchExternals Memory.empty).1⟩,
        [⟨ContinuationTag.ArgKK,
          ⟨some (ConstK 1), (buildGlobalEnvironment churchExternals Memory.empty).1⟩⟩]⟩
      (buildGlobalEnvironment churchExternals Memory.empty).2).diagnostics
      = ["Error: foo is not a defined variable or function.\n"] :=
  ⟨by decide, by decide, by
    rw [(C21_operator_identifier_branch_unreachable churchExternals).2.1 0 "foo" _ _ []
      _ (by decide) (by decide)]
    rfl⟩

end LambdaEval
